import Mathlib

/-!
# Scene tree and draw session: a shallow embedding

The two source files are `src/tree.jsx` (classes `TreeNode` and `Tree`) and
`src/components/FabricCanvas.jsx` (the rectangle drawing component).

Modelling conventions.

* JavaScript objects are mutable and shared by reference.  Every `TreeNode`
  lives in an object store (`Tree.heap`), and a reference to it is its
  position in that store.  `new TreeNode(..)` appends to the store.
* Each node owns at most one `fabric.Rect`, built by `createFabricObject`;
  the render surface therefore names a shape by the reference of the node
  that owns it.
* `this.nodes` is a finite map from ids to references, kept as an
  association list: `Tree.lookup` is the read of an own property, and the three
  methods are embedded with that read.  A plain JavaScript object also answers
  the read `this.nodes[id]` for the names it inherits from `Object.prototype`
  (`inheritedKey`, `Tree.truthy`); the methods and the embedding agree as long
  as no id in play is such a name, which is the hypothesis
  `inheritedKey k = false`.
* `console.error` is observable: its messages are collected in `Tree.console`.
* Numbers are integers.
* A `TypeError` (reading a property of `undefined` or `null`) and running
  out of recursion fuel are the two abnormal outcomes (`Err`).
-/

namespace SceneTree

/-- The options bag given to `setRoot` and `addNode`; a field that is not
present in the JavaScript object is `none`. -/
structure Options where
  x : Option Int := none
  y : Option Int := none
  width : Option Int := none
  height : Option Int := none
  color : Option String := none
  borderSize : Option Int := none
  borderColor : Option String := none
  deriving DecidableEq, Repr

/-- The fields of a `fabric.Rect` that the two files read or write. -/
structure Rect where
  left : Int
  top : Int
  width : Int
  height : Int
  fill : String
  strokeWidth : Int
  stroke : String
  deriving DecidableEq, Repr

/-- JavaScript `a || d` on a numeric option field: `undefined` and `0` are
falsy and give the default. -/
def orNum (a : Option Int) (d : Int) : Int :=
  match a with
  | none => d
  | some v => if v = 0 then d else v

/-- JavaScript `a || d` on a string option field: `undefined` and the empty
string are falsy and give the default. -/
def orStr (a : Option String) (d : String) : String :=
  match a with
  | none => d
  | some v => if v = "" then d else v

/-- A `TreeNode` object: exactly the four properties the constructor assigns.
`children` holds references into the object store. -/
structure TreeNode where
  id : String
  options : Options
  children : List Nat
  fabricObject : Option Rect
  deriving DecidableEq, Repr

/-- The constructor: `new TreeNode(id, options)`. -/
def TreeNode.new (id : String) (options : Options) : TreeNode :=
  { id := id, options := options, children := [], fabricObject := none }

/-- Reading `node.parent`.  Neither the constructor nor any method assigns a
`parent` property, so the read yields `undefined` for every node. -/
def TreeNode.parent (_n : TreeNode) : Option Nat := none

/-- The method `createFabricObject`. -/
def TreeNode.createFabricObject (n : TreeNode) : TreeNode :=
  let rect : Rect :=
    { left := orNum n.options.x 0
      top := orNum n.options.y 0
      width := orNum n.options.width 50
      height := orNum n.options.height 50
      fill := orStr n.options.color "blue"
      strokeWidth := orNum n.options.borderSize 2
      stroke := orStr n.options.borderColor "black" }
  { n with fabricObject := some rect }

/-- The render surface: the shapes currently on it (each named by the
reference of its owning node, in the order they were added) and the trace of
`remove` requests it has received. -/
structure Canvas where
  objects : List Nat
  removed : List Nat
  deriving DecidableEq, Repr

/-- The call `canvas.add(obj)`. -/
def Canvas.add (c : Canvas) (h : Nat) : Canvas :=
  { c with objects := c.objects ++ [h] }

/-- The call `canvas.remove(obj)`. -/
def Canvas.remove (c : Canvas) (h : Nat) : Canvas :=
  { objects := c.objects.filter (fun o => o != h), removed := c.removed ++ [h] }

/-- Abnormal outcomes. -/
inductive Err where
  | typeError
  | outOfFuel
  deriving DecidableEq, Repr

/-- A `Tree` together with the objects it refers to. -/
structure Tree where
  root : Option Nat
  nodes : List (String × Nat)
  canvas : Canvas
  heap : List TreeNode
  console : List String
  deriving DecidableEq, Repr

/-- The constructor `new Tree(canvas)` on a fresh canvas. -/
def Tree.new : Tree :=
  { root := none, nodes := [], canvas := { objects := [], removed := [] },
    heap := [], console := [] }

/-- The read `this.nodes[id]`. -/
def Tree.lookup (t : Tree) (id : String) : Option Nat :=
  t.nodes.lookup id

/-- The write `nodes[id] = ref`. -/
def setKey (m : List (String × Nat)) (id : String) (r : Nat) : List (String × Nat) :=
  m.filter (fun e => e.1 != id) ++ [(id, r)]

/-- The statement `delete nodes[id]`. -/
def deleteKey (m : List (String × Nat)) (id : String) : List (String × Nat) :=
  m.filter (fun e => e.1 != id)

/-- The method `setRoot`. -/
def Tree.setRoot (t : Tree) (id : String) (options : Options) : Tree :=
  let r := t.heap.length
  let rootNode := (TreeNode.new id options).createFabricObject
  { t with
    heap := t.heap ++ [rootNode]
    canvas := t.canvas.add r
    root := some r
    nodes := setKey t.nodes id r }

/-- The method `addNode`. -/
def Tree.addNode (t : Tree) (parentId id : String) (options : Options) : Except Err Tree :=
  match t.lookup parentId with
  | none => .ok { t with console := t.console ++ ["Parent node not found"] }
  | some p =>
    match t.heap[p]? with
    | none => .error .typeError
    | some parentNode =>
      let c := t.heap.length
      let childNode := (TreeNode.new id options).createFabricObject
      match parentNode.fabricObject, childNode.fabricObject with
      | some pf, some cf =>
        let childNode := { childNode with
          fabricObject := some { cf with left := pf.left + 60, top := pf.top + 60 } }
        .ok { t with
          heap := (t.heap.set p { parentNode with children := parentNode.children ++ [c] })
                    ++ [childNode]
          nodes := setKey t.nodes id c
          canvas := t.canvas.add c }
      | _, _ => .error .typeError

/-- The loop of `recursiveDelete(n)`, `n` being the node at reference `r`:
`i + 1` iterations remain, the next one reads `n.children[i]`.  `del` is the
method `deleteNode` it calls back. -/
def recursiveDelete (del : Tree → String → Except Err Tree) (r : Nat) :
    Nat → Tree → Except Err Tree
  | 0, t => .ok t
  | i + 1, t =>
    match t.heap[r]? with
    | none => .error .typeError
    | some n =>
      match n.children[i]? with
      | none => .error .typeError
      | some c =>
        match t.heap[c]? with
        | none => .error .typeError
        | some child =>
          match del t child.id with
          | .error e => .error e
          | .ok t1 => recursiveDelete del r i t1

/-- The method `deleteNode`, with a bound on the depth of the recursion. -/
def Tree.deleteNodeFuel : Nat → Tree → String → Except Err Tree
  | 0, _, _ => .error .outOfFuel
  | fuel + 1, t, id =>
    match t.lookup id with
    | none => .ok { t with console := t.console ++ ["Node not found"] }
    | some r =>
      match t.heap[r]? with
      | none => .error .typeError
      | some node =>
        match recursiveDelete (Tree.deleteNodeFuel fuel) r node.children.length t with
        | .error e => .error e
        | .ok t1 =>
          let t2 : Tree := { t1 with
            canvas := (match node.fabricObject with
              | some _ => t1.canvas.remove r
              | none => t1.canvas)
            nodes := deleteKey t1.nodes id }
          match node.parent with
          | none => .ok t2
          | some p =>
            match t2.heap[p]? with
            | none => .error .typeError
            | some parentNode =>
              .ok { t2 with heap := t2.heap.set p { parentNode with
                children := parentNode.children.filter (fun c =>
                  match t2.heap[c]? with
                  | some cn => cn.id != id
                  | none => true) } }

/-- The method `deleteNode`: the recursion is given one level more than
there are objects in the store. -/
def Tree.deleteNode (t : Tree) (id : String) : Except Err Tree :=
  Tree.deleteNodeFuel (t.heap.length + 1) t id

/-- One call on a tree. -/
inductive Op where
  | setRoot (id : String) (options : Options)
  | addNode (parentId id : String) (options : Options)
  | deleteNode (id : String)
  deriving DecidableEq, Repr

/-- Whether a call is a `setRoot`. -/
def Op.isSetRoot : Op → Bool
  | .setRoot _ _ => true
  | _ => false

/-- Whether a call is a `deleteNode`. -/
def Op.isDelete : Op → Bool
  | .deleteNode _ => true
  | _ => false

/-- Performing one call. -/
def Tree.step (t : Tree) : Op → Except Err Tree
  | .setRoot id options => .ok (t.setRoot id options)
  | .addNode parentId id options => t.addNode parentId id options
  | .deleteNode id => t.deleteNode id

/-- Performing a sequence of calls, first to last. -/
def Tree.run (t : Tree) : List Op → Except Err Tree
  | [] => .ok t
  | op :: ops =>
    match t.step op with
    | .error e => .error e
    | .ok t1 => t1.run ops

/-- The calls `addNode(parentId, id, options)` for a list of triples. -/
def addOps (adds : List (String × String × Options)) : List Op :=
  adds.map (fun a => Op.addNode a.1 a.2.1 a.2.2)

/-- A tree built by one `setRoot` on a new tree followed by `addNode` calls. -/
def Tree.build (rootId : String) (rootOptions : Options)
    (adds : List (String × String × Options)) : Except Err Tree :=
  (Tree.new.setRoot rootId rootOptions).run (addOps adds)

/-- The child link: `c` is in the child list of the node at `r`. -/
def Child (h : List TreeNode) (r c : Nat) : Prop :=
  ∃ n, h[r]? = some n ∧ c ∈ n.children

/-- Reachability through child links: `d` is `r` or a descendant of `r`. -/
def Reach (h : List TreeNode) (r d : Nat) : Prop :=
  Relation.ReflTransGen (Child h) r d

/-- The id `k` is the id of the node at `r` or of one of its descendants. -/
def SubtreeId (h : List TreeNode) (r : Nat) (k : String) : Prop :=
  ∃ d n, Reach h r d ∧ h[d]? = some n ∧ n.id = k

/-- A node with id `k` is reachable from the root through child links. -/
def Tree.ReachableId (t : Tree) (k : String) : Prop :=
  ∃ r, t.root = some r ∧ SubtreeId t.heap r k

/-- The relation between a state and a later one in which only index entries
were dropped: the object store and the root pointer are the same, and every id
is either unbound or bound as before. -/
structure Frame (t t' : Tree) : Prop where
  heap : t'.heap = t.heap
  root : t'.root = t.root
  lookup : ∀ k, t'.lookup k = none ∨ t'.lookup k = t.lookup k

/-- The invariant of every state the three methods can produce: an index
entry leads to a node carrying that id, and to the most recently created one
with that id; a child was created after its parent; every node has its shape;
the root pointer leads into the store. -/
structure WF (t : Tree) : Prop where
  index : ∀ (k : String) (r : Nat), t.lookup k = some r →
    ∃ n, t.heap[r]? = some n ∧ n.id = k
  newest : ∀ (k : String) (r r' : Nat) (n' : TreeNode), t.lookup k = some r →
    t.heap[r']? = some n' → n'.id = k → r' ≤ r
  child : ∀ (r : Nat) (n : TreeNode) (c : Nat), t.heap[r]? = some n → c ∈ n.children →
    r < c ∧ c < t.heap.length
  shape : ∀ (r : Nat) (n : TreeNode), t.heap[r]? = some n → ∃ f, n.fabricObject = some f
  rootValid : ∀ (r : Nat), t.root = some r → r < t.heap.length

/-- The relation between a state and the one after a node `y` was created:
the store has one more object, `y`, at the end; the earlier objects keep their
id and shape, keep their children and gain at most the new object as a child;
the index binds the id of `y` to the new object and is otherwise the same. -/
structure Grows (t t' : Tree) (y : TreeNode) : Prop where
  len : t'.heap.length = t.heap.length + 1
  last : t'.heap[t.heap.length]? = some y
  old : ∀ (r : Nat) (n : TreeNode), t.heap[r]? = some n →
    ∃ n1, t'.heap[r]? = some n1 ∧ n1.id = n.id ∧ n1.options = n.options ∧
      n1.fabricObject = n.fabricObject ∧
      (∀ c ∈ n1.children, c ∈ n.children ∨ c = t.heap.length) ∧
      (∀ c ∈ n.children, c ∈ n1.children)
  fresh : y.children = []
  shape : ∃ f, y.fabricObject = some f
  lookup : ∀ (k : String), t'.lookup k = if k = y.id then some t.heap.length else t.lookup k
  root : t'.root = t.root ∨ t'.root = some t.heap.length

/-- The node `addNode` creates under a parent whose shape is `pf`. -/
def childNode (id : String) (options : Options) (pf : Rect) : TreeNode :=
  { id := id, options := options, children := [],
    fabricObject := some
      { left := pf.left + 60, top := pf.top + 60,
        width := orNum options.width 50, height := orNum options.height 50,
        fill := orStr options.color "blue", strokeWidth := orNum options.borderSize 2,
        stroke := orStr options.borderColor "black" } }

/-- The invariant of a tree whose nodes carry pairwise distinct ids, kept
while a deletion is under way: an index entry leads to a node carrying that
id; no two objects share an id; and below a node whose id has left the index
every id has left the index. -/
structure Distinct (t : Tree) : Prop where
  index : ∀ (k : String) (r : Nat), t.lookup k = some r →
    ∃ n, t.heap[r]? = some n ∧ n.id = k
  inj : ∀ (r r' : Nat) (n n' : TreeNode), t.heap[r]? = some n → t.heap[r']? = some n' →
    n.id = n'.id → r = r'
  closed : ∀ (r : Nat) (n : TreeNode) (c : Nat) (cn : TreeNode), t.heap[r]? = some n →
    c ∈ n.children → t.heap[c]? = some cn → t.lookup n.id = none → t.lookup cn.id = none

/-- What one `deleteNode(id)` call does to the index of a tree with distinct
ids, from state `s` to state `s'`: if `id` was bound to the node at `m`, the
ids that are unbound afterwards are those unbound before and those of `m` and
its descendants; if `id` was unbound, the index is the same. -/
def Exact (s s' : Tree) (id : String) : Prop :=
  (∀ m, s.lookup id = some m →
    ∀ k, s'.lookup k = none ↔ (s.lookup k = none ∨ SubtreeId s.heap m k)) ∧
  (s.lookup id = none → ∀ k, s'.lookup k = s.lookup k)

/-- The invariant of a tree built by one `setRoot` and `addNode` calls with
fresh ids, `rid` being the root id and `ids` the ids used so far: the root is
the first object and is bound under `rid`, every object is bound in the index
under its id, every object is reachable from the root, and every bound id is
among `ids`. -/
structure Built (t : Tree) (rid : String) (ids : List String) : Prop where
  wf : WF t
  root : t.root = some 0
  rootKey : t.lookup rid = some 0
  nonempty : 0 < t.heap.length
  present : ∀ (r : Nat) (n : TreeNode), t.heap[r]? = some n → t.lookup n.id = some r
  reach : ∀ (r : Nat), r < t.heap.length → Reach t.heap 0 r
  keys : ∀ (k : String) (r : Nat), t.lookup k = some r → k ∈ ids

/-- The options `TreeVisualization` gives to `setRoot`. -/
def demoRootOptions : Options :=
  { x := some 100, y := some 100, width := some 80, height := some 80,
    color := some "green", borderSize := some 3 }

/-- The three `addNode` calls of `TreeVisualization`. -/
def demoAdds : List (String × String × Options) :=
  [("root", "child1",
      { x := some 0, y := some 0, width := some 50, height := some 50, color := some "red" }),
   ("root", "child2",
      { x := some 0, y := some 0, width := some 50, height := some 50,
        color := some "yellow" }),
   ("child1", "subChild1",
      { x := some 0, y := some 0, width := some 40, height := some 40,
        color := some "blue" })]

/-- The tree of `TreeVisualization` before its `deleteNode('child1')`. -/
def demoTree : Tree :=
  match Tree.build "root" demoRootOptions demoAdds with
  | .ok t => t
  | .error _ => Tree.new

/-- The invariant of a tree after one `setRoot` and any later `addNode` and
`deleteNode` calls: the root is the first object, and every index entry leads
to an object reachable from it. -/
structure Rooted (t : Tree) : Prop where
  wf : WF t
  root : t.root = some 0
  reach : ∀ (k : String) (r : Nat), t.lookup k = some r → Reach t.heap 0 r

/-- Every object of the store has its id bound in the index. -/
def AllBound (t : Tree) : Prop :=
  ∀ (r : Nat) (n : TreeNode), t.heap[r]? = some n → t.lookup n.id ≠ none

/-- The shape of the root of `demoTree`. -/
def demoRootShape : Rect :=
  { left := 100, top := 100, width := 80, height := 80, fill := "green",
    strokeWidth := 3, stroke := "black" }

/-- The root node of `demoTree`. -/
def demoRootNode : TreeNode :=
  { id := "root", options := demoRootOptions, children := [1, 2],
    fabricObject := some demoRootShape }

/-- The shape of the node `child1` of `demoTree`. -/
def demoChild1Shape : Rect :=
  { left := 160, top := 160, width := 50, height := 50, fill := "red",
    strokeWidth := 2, stroke := "black" }

/-- The node `child1` of `demoTree`. -/
def demoChild1Node : TreeNode :=
  { id := "child1",
    options :=
      { x := some 0, y := some 0, width := some 50, height := some 50, color := some "red" },
    children := [3],
    fabricObject := some demoChild1Shape }

/-- The record `nodeRepresentation` that `printTree` builds for a node:
`{ id, options, children }`. -/
inductive NodeRep where
  | mk (id : String) (options : Options) (children : List NodeRep)
  deriving Repr

/-- The field `id` of a record. -/
def NodeRep.id : NodeRep → String
  | .mk i _ _ => i

/-- The field `options` of a record. -/
def NodeRep.options : NodeRep → Options
  | .mk _ o _ => o

/-- The field `children` of a record. -/
def NodeRep.children : NodeRep → List NodeRep
  | .mk _ _ cs => cs

/-- The loop `for (let child of node.children)` of `traverse`: each child is
traversed in turn and its record, when there is one, is pushed. -/
def traverseChildren (trav : Nat → Except Err (Option NodeRep)) :
    List Nat → Except Err (List NodeRep)
  | [] => .ok []
  | c :: cs =>
    match trav c with
    | .error e => .error e
    | .ok childRepresentation =>
      match traverseChildren trav cs with
      | .error e => .error e
      | .ok rest =>
        match childRepresentation with
        | none => .ok rest
        | some rep => .ok (rep :: rest)

/-- The function `traverse` of `printTree` on the node at reference `r`, with a
bound on the depth of the recursion: `none` is the JavaScript `null`. -/
def Tree.traverse (t : Tree) : Nat → Nat → Except Err (Option NodeRep)
  | 0, _ => .error .outOfFuel
  | fuel + 1, r =>
    match t.heap[r]? with
    | none => .error .typeError
    | some node =>
      match t.lookup node.id with
      | none => .ok none
      | some _ =>
        match traverseChildren (Tree.traverse t fuel) node.children with
        | .error e => .error e
        | .ok reps => .ok (some (NodeRep.mk node.id node.options reps))

/-- The method `printTree`: the value of `result` that it logs.  The recursion
is given one level more than there are objects in the store. -/
def Tree.printTree (t : Tree) : Except Err (List NodeRep) :=
  match t.root with
  | none => .ok []
  | some r =>
    match t.traverse (t.heap.length + 1) r with
    | .error e => .error e
    | .ok none => .ok []
    | .ok (some rootRepresentation) => .ok [rootRepresentation]

mutual
/-- The nested record after a child `{ id, options, children: [] }` is appended
to the children of every record whose id is `parentId`. -/
def NodeRep.add (parentId id : String) (options : Options) : NodeRep → NodeRep
  | .mk i o cs =>
    .mk i o (NodeRep.addList parentId id options cs ++
      (if i = parentId then [NodeRep.mk id options []] else []))
/-- The function `NodeRep.add` along a list of records. -/
def NodeRep.addList (parentId id : String) (options : Options) : List NodeRep → List NodeRep
  | [] => []
  | c :: cs => NodeRep.add parentId id options c :: NodeRep.addList parentId id options cs
end

/-- The nested record a tree should print after `setRoot(rootId, rootOptions)`
and the `addNode` calls `adds`: the root record, to which each call appends a
child record under its parent, in the order of the calls. -/
def specBuild (rootId : String) (rootOptions : Options)
    (adds : List (String × String × Options)) : NodeRep :=
  adds.foldl (fun rep a => rep.add a.1 a.2.1 a.2.2) (NodeRep.mk rootId rootOptions [])

mutual
/-- The nested record without the records whose id is `id` (each goes with its
whole nested subtree); the other records and their order are kept. -/
def NodeRep.remove (id : String) : NodeRep → NodeRep
  | .mk i o cs => .mk i o (NodeRep.removeList id cs)
/-- The function `NodeRep.remove` along a list of records. -/
def NodeRep.removeList (id : String) : List NodeRep → List NodeRep
  | [] => []
  | c :: cs =>
    if c.id = id then NodeRep.removeList id cs
    else NodeRep.remove id c :: NodeRep.removeList id cs
end

mutual
/-- The records of a nested record, parent before children, as pairs of id and
options. -/
def NodeRep.entries : NodeRep → List (String × Options)
  | .mk i o cs => (i, o) :: NodeRep.entriesList cs
/-- The function `NodeRep.entries` along a list of records. -/
def NodeRep.entriesList : List NodeRep → List (String × Options)
  | [] => []
  | c :: cs => NodeRep.entries c ++ NodeRep.entriesList cs
end

/-- The child lists form a forest: no object is a child of two objects, and no
object occurs twice in a child list. -/
structure Forest (t : Tree) : Prop where
  parent : ∀ (a b : Nat) (na nb : TreeNode) (c : Nat), t.heap[a]? = some na →
    t.heap[b]? = some nb → c ∈ na.children → c ∈ nb.children → a = b
  nodup : ∀ (r : Nat) (n : TreeNode), t.heap[r]? = some n → n.children.Nodup

/-- In the step from `t` to `t'` (see `Grows`), the object `q`, if any, gets the
new object as its last child and every other child list is unchanged. -/
def Grafted (t t' : Tree) (q : Option Nat) : Prop :=
  ∀ (r : Nat) (n n1 : TreeNode), t.heap[r]? = some n → t'.heap[r]? = some n1 →
    n1.children = if q = some r then n.children ++ [t.heap.length] else n.children

/-- The ids given to the `addNode` calls of a sequence. -/
def addIds : List Op → List String
  | [] => []
  | .addNode _ id _ :: ops => id :: addIds ops
  | _ :: ops => addIds ops

/-- The invariant of a tree after one `setRoot` and later `addNode` and
`deleteNode` calls in which no id is ever used twice, `used` being the ids
used so far. -/
structure Tidy (t : Tree) (used : List String) : Prop where
  rooted : Rooted t
  forest : Forest t
  distinct : Distinct t
  ids : ∀ (r : Nat) (n : TreeNode), t.heap[r]? = some n → n.id ∈ used

/-- The ids of the records that `printTree` logged, in the order of the
output. -/
def recordIds (out : List NodeRep) : List String :=
  (out.flatMap NodeRep.entries).map (fun e => e.1)

/-- In the list `l`, `d` occurs somewhere before `a`. -/
def Before (l : List Nat) (d a : Nat) : Prop :=
  ∃ l1 l2 l3, l = l1 ++ d :: (l2 ++ a :: l3)

/-- The trace of `remove` requests is a post-order listing of the subtree of
`m`: each object reachable from `m` is listed once, no other object is, and
an object is listed after all its descendants. -/
structure PostOrder (h : List TreeNode) (m : Nat) (l : List Nat) : Prop where
  nodup : l.Nodup
  mem : ∀ x, x ∈ l ↔ Reach h m x
  order : ∀ a d, a ∈ l → Reach h a d → a ≠ d → Before l d a

/-- The names of the properties that a plain object `{}` inherits from
`Object.prototype`. -/
def objectPrototypeKeys : List String :=
  ["constructor", "hasOwnProperty", "isPrototypeOf", "propertyIsEnumerable",
   "toLocaleString", "toString", "valueOf", "__proto__", "__defineGetter__",
   "__defineSetter__", "__lookupGetter__", "__lookupSetter__"]

/-- Whether `id` names a property inherited from `Object.prototype`. -/
def inheritedKey (id : String) : Bool :=
  objectPrototypeKeys.contains id

/-- Whether JavaScript takes the read `this.nodes[id]` as true in the guards
`if (!parentNode)`, `if (!node)` and `if (!this.nodes[node.id])`: it does for
an own key and for an inherited name alike. -/
def Tree.truthy (t : Tree) (id : String) : Bool :=
  (t.lookup id).isSome || inheritedKey id

/-- The ids that a call mentions. -/
def Op.ids : Op → List String
  | .setRoot id _ => [id]
  | .addNode parentId id _ => [parentId, id]
  | .deleteNode id => [id]

/-- The ids that a sequence of calls mentions. -/
def opIds (ops : List Op) : List String :=
  ops.flatMap Op.ids

end SceneTree

namespace Editor

/-- The fields of the `fabric.Rect` built by `handleMouseDown`. -/
structure Rect where
  id : String
  left : Int
  top : Int
  width : Int
  height : Int
  fill : String
  stroke : String
  strokeWidth : Int
  deriving DecidableEq, Repr

/-- An entry of the `layers` state: `object` refers to a rectangle of the
object store. -/
structure Layer where
  id : String
  type : String
  object : Nat
  deriving DecidableEq, Repr

/-- The state of the component `FabricCanvas`: its React state variables, the
rectangles created so far (`store`, a reference being a position in it), and
the two parts of `canvasRef.current` the handlers use. -/
structure State where
  isDrawing : Bool
  rectangle : Option Nat
  originX : Int
  originY : Int
  activeMode : Option String
  layers : List Layer
  selectedColor : String
  store : List Rect
  objects : List Nat
  activeObject : Option Nat
  deriving DecidableEq, Repr

/-- The state after the first render. -/
def State.init : State :=
  { isDrawing := false, rectangle := none, originX := 0, originY := 0,
    activeMode := none, layers := [], selectedColor := "#000",
    store := [], objects := [], activeObject := none }

/-- The function `Math.abs` on integers. -/
def mathAbs (a : Int) : Int := if a < 0 then -a else a

/-- The handler `activateRectangleMode`. -/
def activateRectangleMode (s : State) : State :=
  { s with activeMode := some "rectangle" }

/-- The handler `handleMouseDown`; `id` is the value `uuidv4()` returns and
`(px, py)` the pointer position. -/
def handleMouseDown (s : State) (id : String) (px py : Int) : State :=
  if s.activeMode != some "rectangle" || s.activeObject.isSome then s
  else
    let h := s.store.length
    let newRectangle : Rect :=
      { id := id, left := px, top := py, width := 0, height := 0,
        fill := s.selectedColor, stroke := "black", strokeWidth := 2 }
    { s with
      originX := px
      originY := py
      store := s.store ++ [newRectangle]
      objects := s.objects ++ [h]
      rectangle := some h
      layers := s.layers ++ [{ id := id, type := "rectangle", object := h }]
      isDrawing := true }

/-- The handler `handleMouseMove`; `(px, py)` is the pointer position. -/
def handleMouseMove (s : State) (px py : Int) : State :=
  if s.isDrawing then
    match s.rectangle with
    | none => s
    | some h =>
      match s.store[h]? with
      | none => s
      | some rect =>
        let r1 := { rect with
          width := mathAbs (s.originX - px), height := mathAbs (s.originY - py) }
        let r2 := if s.originX > px then { r1 with left := px } else r1
        let r3 := if s.originY > py then { r2 with top := py } else r2
        { s with store := s.store.set h r3 }
  else s

/-- The handler `handleMouseUp`. -/
def handleMouseUp (s : State) : State :=
  { s with isDrawing := false, rectangle := none }

/-- The rectangle being drawn, if any. -/
def State.current (s : State) : Option Rect :=
  match s.rectangle with
  | none => none
  | some h => s.store[h]?

/-- The handler `deactivateModes`. -/
def deactivateModes (s : State) : State :=
  { s with activeMode := none }

/-- Modelled from the spec: the call `canvas.remove(obj)` of the render
surface, which is not part of the sources.  The object leaves the surface and,
as the spec says of `deleteLayer`, the selection is cleared when the removed
object was the active one. -/
def canvasRemove (s : State) (h : Nat) : State :=
  { s with
    objects := s.objects.filter (fun o => o != h)
    activeObject := if s.activeObject = some h then none else s.activeObject }

/-- The handler `handleLayerClick`. -/
def handleLayerClick (s : State) (id : String) : State :=
  match s.layers.find? (fun layer => layer.id == id) with
  | none => s
  | some selectedLayer => { s with activeObject := some selectedLayer.object }

/-- The handler `handleDeleteLayer`. -/
def handleDeleteLayer (s : State) (id : String) : State :=
  match s.layers.find? (fun layer => layer.id == id) with
  | none => s
  | some selectedLayer =>
    { canvasRemove s selectedLayer.object with
      layers := s.layers.filter (fun layer => layer.id != id) }

/-- The listener `handleKeyDown`; `key` is `event.key`. -/
def handleKeyDown (s : State) (key : String) : State :=
  if key = "Backspace" ∨ key = "Delete" then
    match s.activeObject with
    | none => s
    | some h =>
      match s.store[h]? with
      | none => s
      | some activeObject =>
        { canvasRemove s h with
          layers := s.layers.filter (fun layer => layer.id != activeObject.id) }
  else s

/-- The handler `handleColorChange`; `hex` is `color.hex`. -/
def handleColorChange (s : State) (hex : String) : State :=
  match s.activeObject with
  | none => { s with selectedColor := hex }
  | some h =>
    match s.store[h]? with
    | none => { s with selectedColor := hex }
    | some activeObject =>
      { s with
        selectedColor := hex
        store := s.store.set h { activeObject with fill := hex } }

/-- What can happen to the component: a call of one of its handlers, or the
canvas changing its own selection (it is created with `selection: true`). -/
inductive Event where
  | mouseDown (id : String) (px py : Int)
  | mouseMove (px py : Int)
  | mouseUp
  | activateRectangleMode
  | deactivateModes
  | layerClick (id : String)
  | deleteLayer (id : String)
  | keyDown (key : String)
  | colorChange (hex : String)
  | canvasSelect (h : Option Nat)
  deriving DecidableEq, Repr

/-- The effect of one event.  The canvas can only select an object that is on
it. -/
def State.step (s : State) : Event → State
  | .mouseDown id px py => handleMouseDown s id px py
  | .mouseMove px py => handleMouseMove s px py
  | .mouseUp => handleMouseUp s
  | .activateRectangleMode => activateRectangleMode s
  | .deactivateModes => deactivateModes s
  | .layerClick id => handleLayerClick s id
  | .deleteLayer id => handleDeleteLayer s id
  | .keyDown key => handleKeyDown s key
  | .colorChange hex => handleColorChange s hex
  | .canvasSelect none => { s with activeObject := none }
  | .canvasSelect (some h) => if h ∈ s.objects then { s with activeObject := some h } else s

/-- The effect of a sequence of events, first to last. -/
def State.run (s : State) : List Event → State
  | [] => s
  | e :: es => (s.step e).run es

/-- Whether a pointer-down is accepted in state `s`. -/
def State.accepts (s : State) : Bool :=
  !(s.activeMode != some "rectangle" || s.activeObject.isSome)

/-- The ids that `uuidv4()` returned along a sequence of events, one for each
pointer-down. -/
def downIds : List Event → List String
  | [] => []
  | .mouseDown id _ _ :: es => id :: downIds es
  | _ :: es => downIds es

/-- The layer entry an event adds in state `s`: the one of an accepted
pointer-down. -/
def State.addedBy (s : State) : Event → List Layer
  | .mouseDown id _ _ =>
    if s.accepts then [{ id := id, type := "rectangle", object := s.store.length }] else []
  | _ => []

/-- The layer id an event removes in state `s`: the one given to
`handleDeleteLayer` when it is listed, or the one of the active object on a
delete key. -/
def State.removedBy (s : State) : Event → List String
  | .deleteLayer id =>
    if (s.layers.find? (fun layer => layer.id == id)).isSome then [id] else []
  | .keyDown key =>
    if key = "Backspace" ∨ key = "Delete" then
      match s.activeObject with
      | none => []
      | some h =>
        match s.store[h]? with
        | none => []
        | some activeObject => [activeObject.id]
    else []
  | _ => []

/-- The layer entries added along a sequence of events from state `s`, in the
order they were added. -/
def State.added (s : State) : List Event → List Layer
  | [] => []
  | e :: es => s.addedBy e ++ (s.step e).added es

/-- The layer ids removed along a sequence of events from state `s`. -/
def State.removed (s : State) : List Event → List String
  | [] => []
  | e :: es => s.removedBy e ++ (s.step e).removed es

/-- A session used as an example: three rectangles are drawn, the first is
deleted from the layer panel and the third with the delete key. -/
def demoEvents : List Event :=
  [.activateRectangleMode,
   .mouseDown "a" 10 10, .mouseMove 30 40, .mouseUp,
   .mouseDown "b" 50 50, .mouseMove 20 20, .mouseUp,
   .deleteLayer "a",
   .mouseDown "c" 5 5, .mouseUp,
   .layerClick "c", .keyDown "Delete"]

/-- A state in rectangle mode in which one rectangle has been drawn and then
selected from the layer panel. -/
def demoSelected : State :=
  State.init.run [.activateRectangleMode, .mouseDown "a" 10 10, .mouseMove 30 40, .mouseUp,
    .layerClick "a"]

/-- The ids in use in a state are among `used`. -/
def Used (s : State) (used : List String) : Prop :=
  (∀ l ∈ s.layers, l.id ∈ used) ∧ (∀ r ∈ s.store, r.id ∈ used)

end Editor

/-! ## The id index -/

namespace SceneTree

theorem lookup_setKey (m : List (String × Nat)) (id k : String) (r : Nat) :
    (setKey m id r).lookup k = if k = id then some r else m.lookup k := by
  unfold setKey
  induction m with
  | nil =>
    by_cases h : k = id
    · subst h; simp [List.lookup]
    · have : (k == id) = false := by simpa using h
      simp [List.lookup, this, h]
  | cons e m ih =>
    obtain ⟨a, b⟩ := e
    by_cases ha : a = id
    · subst ha
      by_cases hk : k = a
      · subst hk; simpa using ih
      · have : (k == a) = false := by simpa using hk
        simp [List.lookup, this, hk] at ih ⊢
        exact ih
    · have ha2 : (a != id) = true := by simpa using ha
      simp only [List.filter_cons, ha2, if_true, List.cons_append, List.lookup]
      by_cases hk : k = a
      · subst hk; simp [ha]
      · have : (k == a) = false := by simpa using hk
        simp only [this]
        exact ih

theorem lookup_deleteKey (m : List (String × Nat)) (id k : String) :
    (deleteKey m id).lookup k = if k = id then none else m.lookup k := by
  unfold deleteKey
  induction m with
  | nil => simp [List.lookup]
  | cons e m ih =>
    obtain ⟨a, b⟩ := e
    by_cases ha : a = id
    · subst ha
      by_cases hk : k = a
      · subst hk; simpa using ih
      · have : (k == a) = false := by simpa using hk
        simp [List.lookup, this, hk] at ih ⊢
        exact ih
    · have ha2 : (a != id) = true := by simpa using ha
      simp only [List.filter_cons, ha2, if_true, List.lookup]
      by_cases hk : k = a
      · subst hk; simp [ha]
      · have : (k == a) = false := by simpa using hk
        simp only [this]
        exact ih

/-- An index in which no key is bound is the empty list. -/
theorem nodes_eq_nil_of_lookup (m : List (String × Nat))
    (h : ∀ k, m.lookup k = none) : m = [] := by
  cases m with
  | nil => rfl
  | cons e m =>
    obtain ⟨a, b⟩ := e
    have := h a
    simp [List.lookup] at this

/-! ## What `deleteNode` leaves alone -/

theorem Frame.refl (t : Tree) : Frame t t :=
  ⟨rfl, rfl, fun _ => Or.inr rfl⟩

theorem Frame.trans {a b c : Tree} (h1 : Frame a b) (h2 : Frame b c) : Frame a c := by
  refine ⟨h2.heap.trans h1.heap, h2.root.trans h1.root, fun k => ?_⟩
  rcases h2.lookup k with h | h
  · exact Or.inl h
  · rcases h1.lookup k with h3 | h3
    · exact Or.inl (h.trans h3)
    · exact Or.inr (h.trans h3)

theorem recursiveDelete_frame (del : Tree → String → Except Err Tree) (r : Nat)
    (hdel : ∀ t id t', del t id = .ok t' → Frame t t') :
    ∀ (i : Nat) (t t' : Tree), recursiveDelete del r i t = .ok t' → Frame t t' := by
  intro i
  induction i with
  | zero =>
    intro t t' h
    simp only [recursiveDelete, Except.ok.injEq] at h
    subst h
    exact Frame.refl t
  | succ i ih =>
    intro t t' h
    simp only [recursiveDelete] at h
    split at h
    · cases h
    · split at h
      · cases h
      · split at h
        · cases h
        · split at h
          · cases h
          · rename_i t1 h1
            exact (hdel _ _ _ h1).trans (ih _ _ h)

theorem deleteNodeFuel_frame :
    ∀ (fuel : Nat) (t : Tree) (id : String) (t' : Tree),
      Tree.deleteNodeFuel fuel t id = .ok t' → Frame t t' ∧ t'.lookup id = none := by
  intro fuel
  induction fuel with
  | zero =>
    intro t id t' h
    simp [Tree.deleteNodeFuel] at h
  | succ fuel ih =>
    intro t id t' h
    simp only [Tree.deleteNodeFuel, TreeNode.parent] at h
    split at h
    · rename_i hl
      simp only [Except.ok.injEq] at h
      subst h
      exact ⟨⟨rfl, rfl, fun _ => Or.inr rfl⟩, hl⟩
    · split at h
      · cases h
      · split at h
        · cases h
        · rename_i t1 h1
          simp only [Except.ok.injEq] at h
          subst h
          have hf := recursiveDelete_frame _ _ (fun a b c hc => (ih a b c hc).1) _ _ _ h1
          refine ⟨⟨hf.heap, hf.root, fun k => ?_⟩, ?_⟩
          · show (deleteKey t1.nodes id).lookup k = none ∨
              (deleteKey t1.nodes id).lookup k = t.lookup k
            rw [lookup_deleteKey]
            by_cases hk : k = id
            · simp [hk]
            · simp only [hk, if_false]
              exact hf.lookup k
          · show (deleteKey t1.nodes id).lookup id = none
            rw [lookup_deleteKey]; simp

end SceneTree

/-! ## Termination of `deleteNode` -/

namespace SceneTree

theorem WF.of_frame {t t' : Tree} (h : WF t) (f : Frame t t') : WF t' := by
  have hl : ∀ k r, t'.lookup k = some r → t.lookup k = some r := by
    intro k r hk
    rcases f.lookup k with h1 | h1
    · rw [h1] at hk; cases hk
    · rw [← h1]; exact hk
  refine ⟨?_, ?_, ?_, ?_, ?_⟩
  · intro k r hk
    rw [f.heap]
    exact h.index k r (hl k r hk)
  · intro k r r' n' hk hn hid
    rw [f.heap] at hn
    exact h.newest k r r' n' (hl k r hk) hn hid
  · intro r n c hn hc
    rw [f.heap] at hn ⊢
    exact h.child r n c hn hc
  · intro r n hn
    rw [f.heap] at hn
    exact h.shape r n hn
  · intro r hr
    rw [f.heap]
    rw [f.root] at hr
    exact h.rootValid r hr

theorem recursiveDelete_ok (fuel r : Nat) (n : TreeNode) (H : List TreeNode)
    (ih : ∀ (t : Tree) (id : String), WF t → 0 < fuel →
      (∀ m, t.lookup id = some m → t.heap.length < fuel + m) →
      ∃ t', Tree.deleteNodeFuel fuel t id = .ok t')
    (hr : H[r]? = some n) (hfuel : H.length < fuel + 1 + r) :
    ∀ (i : Nat) (s : Tree), WF s → s.heap = H → i ≤ n.children.length →
      ∃ s', recursiveDelete (Tree.deleteNodeFuel fuel) r i s = .ok s' := by
  intro i
  induction i with
  | zero =>
    intro s _ _ _
    exact ⟨s, rfl⟩
  | succ i ihi =>
    intro s hs hH hi
    have hlt : i < n.children.length := hi
    have hc : n.children[i]? = some (n.children[i]) := List.getElem?_eq_getElem hlt
    have hmem : n.children[i] ∈ n.children := List.getElem_mem hlt
    have hsr : s.heap[r]? = some n := by rw [hH]; exact hr
    obtain ⟨hrc, hclt⟩ := hs.child r n _ hsr hmem
    have hchild : s.heap[n.children[i]]? = some (s.heap[n.children[i]]) :=
      List.getElem?_eq_getElem hclt
    have hlen : s.heap.length = H.length := by rw [hH]
    obtain ⟨s1, h1⟩ := ih s (s.heap[n.children[i]]).id hs (by omega) (by
      intro m hm
      have := hs.newest _ m _ _ hm hchild rfl
      omega)
    have hf := (deleteNodeFuel_frame _ _ _ _ h1).1
    obtain ⟨s2, h2⟩ := ihi s1 (hs.of_frame hf) (hf.heap.trans hH) (by omega)
    refine ⟨s2, ?_⟩
    simp only [recursiveDelete, hsr, hc, hchild, h1]
    exact h2

theorem deleteNodeFuel_ok :
    ∀ (fuel : Nat) (t : Tree) (id : String), WF t → 0 < fuel →
      (∀ m, t.lookup id = some m → t.heap.length < fuel + m) →
      ∃ t', Tree.deleteNodeFuel fuel t id = .ok t' := by
  intro fuel
  induction fuel with
  | zero => intro t id _ h; omega
  | succ fuel ih =>
    intro t id ht _ hb
    cases hl : t.lookup id with
    | none => exact ⟨_, by simp only [Tree.deleteNodeFuel, hl]; rfl⟩
    | some r =>
      obtain ⟨n, hn, _⟩ := ht.index id r hl
      have hfuel := hb r hl
      obtain ⟨t1, h1⟩ := recursiveDelete_ok fuel r n t.heap ih hn (by omega)
        n.children.length t ht rfl (le_refl _)
      exact ⟨_, by simp only [Tree.deleteNodeFuel, hl, hn, h1, TreeNode.parent]; rfl⟩

theorem recursiveDelete_mono (del del' : Tree → String → Except Err Tree) (r : Nat)
    (h : ∀ t id t', del t id = .ok t' → del' t id = .ok t') :
    ∀ (i : Nat) (t t' : Tree), recursiveDelete del r i t = .ok t' →
      recursiveDelete del' r i t = .ok t' := by
  intro i
  induction i with
  | zero => intro t t' ht; exact ht
  | succ i ih =>
    intro t t' ht
    simp only [recursiveDelete] at ht ⊢
    split at ht
    · cases ht
    · split at ht
      · cases ht
      · split at ht
        · cases ht
        · split at ht
          · cases ht
          · rename_i t1 h1
            simp only [h _ _ _ h1]
            exact ih _ _ ht

/-- A result of `deleteNode` does not depend on the bound: a larger bound
gives the same state. -/
theorem deleteNodeFuel_mono :
    ∀ (fuel : Nat) (t : Tree) (id : String) (t' : Tree),
      Tree.deleteNodeFuel fuel t id = .ok t' → Tree.deleteNodeFuel (fuel + 1) t id = .ok t' := by
  intro fuel
  induction fuel with
  | zero =>
    intro t id t' h
    simp [Tree.deleteNodeFuel] at h
  | succ fuel ih =>
    intro t id t' h
    rw [Tree.deleteNodeFuel] at h ⊢
    split at h
    · exact h
    · split at h
      · cases h
      · split at h
        · cases h
        · rename_i t1 h1
          simp only [recursiveDelete_mono _ _ _ ih _ _ _ h1]
          exact h

/-- On a well-formed state `deleteNode` returns. -/
theorem deleteNode_ok (t : Tree) (id : String) (ht : WF t) :
    ∃ t', t.deleteNode id = .ok t' :=
  deleteNodeFuel_ok _ t id ht (by omega) (by intro m _; omega)

end SceneTree

/-! ## Creating nodes -/

namespace SceneTree

theorem WF.new : WF Tree.new := by
  refine ⟨?_, ?_, ?_, ?_, ?_⟩ <;> intros <;> simp_all [Tree.new, Tree.lookup, List.lookup]

theorem Grows.old_inv {t t' : Tree} {y : TreeNode} (g : Grows t t' y) (r : Nat)
    (n1 : TreeNode) (h1 : t'.heap[r]? = some n1) :
    (r = t.heap.length ∧ n1 = y) ∨
    (r < t.heap.length ∧ ∃ n, t.heap[r]? = some n ∧ n1.id = n.id ∧ n1.options = n.options ∧
      n1.fabricObject = n.fabricObject ∧
      (∀ c ∈ n1.children, c ∈ n.children ∨ c = t.heap.length) ∧
      (∀ c ∈ n.children, c ∈ n1.children)) := by
  have hlt : r < t'.heap.length := by
    by_contra hc
    rw [List.getElem?_eq_none (by omega)] at h1
    cases h1
  rw [g.len] at hlt
  by_cases hr : r = t.heap.length
  · left
    subst hr
    rw [g.last] at h1
    exact ⟨rfl, (Option.some.inj h1).symm⟩
  · right
    have hr2 : r < t.heap.length := by omega
    refine ⟨hr2, t.heap[r], List.getElem?_eq_getElem hr2, ?_⟩
    obtain ⟨n2, h2, h3⟩ := g.old r _ (List.getElem?_eq_getElem hr2)
    rw [h1] at h2
    cases h2
    exact h3

theorem WF.grows {t t' : Tree} {y : TreeNode} (h : WF t) (g : Grows t t' y) : WF t' := by
  refine ⟨?_, ?_, ?_, ?_, ?_⟩
  · intro k r hk
    rw [g.lookup] at hk
    by_cases hky : k = y.id
    · simp only [hky, if_true, Option.some.injEq] at hk
      subst hk
      exact ⟨y, g.last, hky.symm⟩
    · simp only [hky, if_false] at hk
      obtain ⟨n, hn, hid⟩ := h.index k r hk
      obtain ⟨n1, h1, h2, _⟩ := g.old r n hn
      exact ⟨n1, h1, h2.trans hid⟩
  · intro k r r' n' hk hn hid
    rw [g.lookup] at hk
    rcases g.old_inv r' n' hn with ⟨h1, h2⟩ | ⟨h1, n, h2, h3, _⟩
    · subst h2
      simp only [hid, if_true, Option.some.injEq] at hk
      omega
    · by_cases hky : k = y.id
      · simp only [hky, if_true, Option.some.injEq] at hk
        omega
      · simp only [hky, if_false] at hk
        exact h.newest k r r' n hk h2 (h3.symm.trans hid)
  · intro r n c hn hc
    rw [g.len]
    rcases g.old_inv r n hn with ⟨h1, h2⟩ | ⟨h1, n0, h2, _, _, _, h5, _⟩
    · subst h2
      rw [g.fresh] at hc
      cases hc
    · rcases h5 c hc with h6 | h6
      · have := h.child r n0 c h2 h6
        omega
      · omega
  · intro r n hn
    rcases g.old_inv r n hn with ⟨_, h2⟩ | ⟨_, n0, h2, _, _, h4, _⟩
    · subst h2
      exact g.shape
    · rw [h4]
      exact h.shape r n0 h2
  · intro r hr
    rw [g.len]
    rcases g.root with h1 | h1
    · rw [h1] at hr
      have := h.rootValid r hr
      omega
    · rw [h1] at hr
      cases hr
      omega

theorem setRoot_grows (t : Tree) (id : String) (options : Options) :
    Grows t (t.setRoot id options) (TreeNode.new id options).createFabricObject := by
  refine ⟨?_, ?_, ?_, rfl, ⟨_, rfl⟩, ?_, Or.inr rfl⟩
  · simp [Tree.setRoot]
  · simp [Tree.setRoot]
  · intro r n hn
    have hlt : r < t.heap.length := by
      by_contra hc
      rw [List.getElem?_eq_none (by omega)] at hn
      cases hn
    refine ⟨n, ?_, rfl, rfl, rfl, fun c hc => Or.inl hc, fun c hc => hc⟩
    simp only [Tree.setRoot]
    rw [List.getElem?_append_left hlt]
    exact hn
  · intro k
    simp only [Tree.setRoot, Tree.lookup, TreeNode.createFabricObject, TreeNode.new]
    exact lookup_setKey _ _ _ _

/-- The state `addNode` produces when the parent is in the index. -/
theorem addNode_eq (t : Tree) (parentId id : String) (options : Options)
    (p : Nat) (pn : TreeNode) (pf : Rect)
    (hp : t.lookup parentId = some p) (hn : t.heap[p]? = some pn)
    (hf : pn.fabricObject = some pf) :
    t.addNode parentId id options = .ok
      { t with
        heap := (t.heap.set p { pn with children := pn.children ++ [t.heap.length] })
                  ++ [childNode id options pf]
        nodes := setKey t.nodes id t.heap.length
        canvas := t.canvas.add t.heap.length } := by
  simp only [Tree.addNode, hp, hn, hf, TreeNode.createFabricObject, TreeNode.new, childNode]

theorem addNode_grows (t t' : Tree) (parentId id : String) (options : Options)
    (p : Nat) (pn : TreeNode) (pf : Rect)
    (hp : t.lookup parentId = some p) (hn : t.heap[p]? = some pn)
    (hf : pn.fabricObject = some pf)
    (h : t.addNode parentId id options = .ok t') :
    Grows t t' (childNode id options pf) := by
  rw [addNode_eq t parentId id options p pn pf hp hn hf] at h
  simp only [Except.ok.injEq] at h
  subst h
  have hplt : p < t.heap.length := by
    by_contra hc
    rw [List.getElem?_eq_none (by omega)] at hn
    cases hn
  refine ⟨?_, ?_, ?_, rfl, ⟨_, rfl⟩, ?_, Or.inl rfl⟩
  · simp
  · show ((t.heap.set p _) ++ [_])[t.heap.length]? = _
    rw [List.getElem?_append_right (by simp)]
    simp
  · intro r n hr
    have hlt : r < t.heap.length := by
      by_contra hc
      rw [List.getElem?_eq_none (by omega)] at hr
      cases hr
    show ∃ n1, ((t.heap.set p _) ++ [_])[r]? = some n1 ∧ _
    rw [List.getElem?_append_left (by simpa using hlt)]
    by_cases hrp : p = r
    · subst hrp
      rw [hn] at hr
      cases hr
      refine ⟨{ pn with children := pn.children ++ [t.heap.length] },
        by rw [List.getElem?_set_self hplt], rfl, rfl, rfl, ?_, ?_⟩
      · intro c hc
        simpa using hc
      · intro c hc
        simp [hc]
    · refine ⟨n, by rw [List.getElem?_set_ne hrp]; exact hr, rfl, rfl, rfl,
        fun c hc => Or.inl hc, fun c hc => hc⟩
  · intro k
    exact lookup_setKey _ _ _ _

end SceneTree

/-! ## Sequences of calls -/

namespace SceneTree

theorem step_ok (t : Tree) (op : Op) (h : WF t) : ∃ t', t.step op = .ok t' ∧ WF t' := by
  cases op with
  | setRoot id options =>
    exact ⟨_, rfl, h.grows (setRoot_grows t id options)⟩
  | addNode parentId id options =>
    cases hp : t.lookup parentId with
    | none =>
      refine ⟨{ t with console := t.console ++ ["Parent node not found"] }, ?_, ?_⟩
      · simp only [Tree.step, Tree.addNode, hp]
      · exact h.of_frame ⟨rfl, rfl, fun _ => Or.inr rfl⟩
    | some p =>
      obtain ⟨pn, hn, _⟩ := h.index parentId p hp
      obtain ⟨pf, hf⟩ := h.shape p pn hn
      have he := addNode_eq t parentId id options p pn pf hp hn hf
      exact ⟨_, he, h.grows (addNode_grows t _ parentId id options p pn pf hp hn hf he)⟩
  | deleteNode id =>
    obtain ⟨t', ht'⟩ := deleteNode_ok t id h
    exact ⟨t', ht', h.of_frame (deleteNodeFuel_frame _ _ _ _ ht').1⟩

theorem run_ok (ops : List Op) : ∀ (t : Tree), WF t → ∃ t', t.run ops = .ok t' ∧ WF t' := by
  induction ops with
  | nil => intro t h; exact ⟨t, rfl, h⟩
  | cons op ops ih =>
    intro t h
    obtain ⟨t1, h1, hw⟩ := step_ok t op h
    obtain ⟨t2, h2, hw2⟩ := ih t1 hw
    exact ⟨t2, by simp only [Tree.run, h1, h2], hw2⟩

/-- Every state reached from a new tree is well formed. -/
theorem run_wf (ops : List Op) (t : Tree) (h : Tree.new.run ops = .ok t) : WF t := by
  obtain ⟨t', h1, hw⟩ := run_ok ops Tree.new WF.new
  rw [h] at h1
  cases h1
  exact hw

/-! ## What `deleteNode` removes when ids are distinct -/

theorem reach_head {H : List TreeNode} {r d : Nat} (h : Reach H r d) :
    d = r ∨ ∃ c, Child H r c ∧ Reach H c d := by
  rcases Relation.ReflTransGen.cases_head h with h1 | ⟨c, h1, h2⟩
  · exact Or.inl h1.symm
  · exact Or.inr ⟨c, h1, h2⟩

theorem subtreeId_iff {H : List TreeNode} {r : Nat} {n : TreeNode} (hr : H[r]? = some n)
    (k : String) :
    SubtreeId H r k ↔ k = n.id ∨ ∃ c, c ∈ n.children ∧ SubtreeId H c k := by
  constructor
  · rintro ⟨d, nd, hreach, hd, hk⟩
    rcases reach_head hreach with h1 | ⟨c, ⟨n0, hn0, hc⟩, h2⟩
    · subst h1
      rw [hr] at hd
      cases hd
      exact Or.inl hk.symm
    · rw [hr] at hn0
      cases hn0
      exact Or.inr ⟨c, hc, d, nd, h2, hd, hk⟩
  · rintro (h1 | ⟨c, hc, d, nd, h2, hd, hk⟩)
    · exact ⟨r, n, Relation.ReflTransGen.refl, hr, h1.symm⟩
    · exact ⟨d, nd, Relation.ReflTransGen.head ⟨n, hr, hc⟩ h2, hd, hk⟩

theorem Distinct.below {s : Tree} (h : Distinct s) {c : Nat} {cn : TreeNode}
    (hc : s.heap[c]? = some cn) (hnone : s.lookup cn.id = none) :
    ∀ k, SubtreeId s.heap c k → s.lookup k = none := by
  rintro k ⟨d, nd, hreach, hd, hk⟩
  subst hk
  revert nd
  induction hreach with
  | refl =>
    intro nd hd
    rw [hc] at hd
    cases hd
    exact hnone
  | tail _ hchild ih =>
    intro nd hd
    obtain ⟨nb, hb, hmem⟩ := hchild
    exact h.closed _ nb _ nd hb hmem hd (ih nb hb)

theorem Distinct.congr {s s' : Tree} (h : Distinct s) (hh : s'.heap = s.heap)
    (hl : ∀ k, s'.lookup k = s.lookup k) : Distinct s' := by
  refine ⟨?_, ?_, ?_⟩
  · intro k r hk
    rw [hh]
    rw [hl] at hk
    exact h.index k r hk
  · intro r r' n n' h1 h2
    rw [hh] at h1 h2
    exact h.inj r r' n n' h1 h2
  · intro r n c cn h1 hc h2 h3
    rw [hh] at h1 h2
    rw [hl] at h3 ⊢
    exact h.closed r n c cn h1 hc h2 h3

theorem Distinct.of_exact {s s' : Tree} (h : Distinct s) (f : Frame s s') (m : Nat)
    (hx : ∀ k, s'.lookup k = none ↔ (s.lookup k = none ∨ SubtreeId s.heap m k)) :
    Distinct s' := by
  refine ⟨?_, ?_, ?_⟩
  · intro k r hk
    rw [f.heap]
    rcases f.lookup k with h1 | h1
    · rw [h1] at hk; cases hk
    · rw [h1] at hk
      exact h.index k r hk
  · intro r r' n n' h1 h2
    rw [f.heap] at h1 h2
    exact h.inj r r' n n' h1 h2
  · intro r n c cn h1 hc h2 h3
    rw [f.heap] at h1 h2
    rw [hx] at h3 ⊢
    rcases h3 with h3 | ⟨d, nd, hreach, hd, hk⟩
    · exact Or.inl (h.closed r n c cn h1 hc h2 h3)
    · have hdr : d = r := h.inj d r nd n hd h1 hk
      subst hdr
      exact Or.inr ⟨c, cn, Relation.ReflTransGen.tail hreach ⟨n, h1, hc⟩, h2, rfl⟩

end SceneTree

namespace SceneTree

theorem recursiveDelete_exact (del : Tree → String → Except Err Tree) (r : Nat)
    (n : TreeNode) (H : List TreeNode)
    (hdel : ∀ s id s', del s id = .ok s' → Distinct s →
      Frame s s' ∧ Distinct s' ∧ Exact s s' id)
    (hr : H[r]? = some n) :
    ∀ (i : Nat) (s s' : Tree), recursiveDelete del r i s = .ok s' → Distinct s →
      s.heap = H →
      Frame s s' ∧ Distinct s' ∧
      ∀ k, s'.lookup k = none ↔
        (s.lookup k = none ∨ ∃ j c, j < i ∧ n.children[j]? = some c ∧ SubtreeId H c k) := by
  intro i
  induction i with
  | zero =>
    intro s s' h hs _
    simp only [recursiveDelete, Except.ok.injEq] at h
    subst h
    refine ⟨Frame.refl s, hs, fun k => ?_⟩
    constructor
    · exact fun h => Or.inl h
    · rintro (h | ⟨j, c, hj, _⟩)
      · exact h
      · omega
  | succ i ih =>
    intro s s' h hs hH
    simp only [recursiveDelete] at h
    rw [hH, hr] at h
    simp only at h
    split at h
    · cases h
    · rename_i c hc
      split at h
      · cases h
      · rename_i child hchild
        split at h
        · cases h
        · rename_i s1 h1
          obtain ⟨f1, d1, x1⟩ := hdel _ _ _ h1 hs
          obtain ⟨f2, d2, x2⟩ := ih s1 s' h d1 (f1.heap.trans hH)
          have hchild2 : s.heap[c]? = some child := by rw [hH]; exact hchild
          have key : ∀ k, s1.lookup k = none ↔ (s.lookup k = none ∨ SubtreeId H c k) := by
            intro k
            cases hl : s.lookup child.id with
            | none =>
              rw [x1.2 hl k]
              constructor
              · exact fun h => Or.inl h
              · rintro (h | h)
                · exact h
                · rw [← hH] at h
                  exact hs.below hchild2 hl k h
            | some m =>
              obtain ⟨nm, hm, hid⟩ := hs.index _ m hl
              have hmc : m = c := hs.inj m c nm child hm hchild2 hid
              subst hmc
              rw [x1.1 m hl k, hH]
          refine ⟨f1.trans f2, d2, fun k => ?_⟩
          rw [x2 k, key k]
          constructor
          · rintro ((h | h) | ⟨j, c', hj, hc', hsub⟩)
            · exact Or.inl h
            · exact Or.inr ⟨i, c, by omega, hc, h⟩
            · exact Or.inr ⟨j, c', by omega, hc', hsub⟩
          · rintro (h | ⟨j, c', hj, hc', hsub⟩)
            · exact Or.inl (Or.inl h)
            · by_cases hji : j = i
              · subst hji
                rw [hc] at hc'
                cases hc'
                exact Or.inl (Or.inr hsub)
              · exact Or.inr ⟨j, c', by omega, hc', hsub⟩

theorem deleteNodeFuel_exact :
    ∀ (fuel : Nat) (s : Tree) (id : String) (s' : Tree),
      Tree.deleteNodeFuel fuel s id = .ok s' → Distinct s →
      Frame s s' ∧ Distinct s' ∧ Exact s s' id := by
  intro fuel
  induction fuel with
  | zero =>
    intro s id s' h
    simp [Tree.deleteNodeFuel] at h
  | succ fuel ih =>
    intro s id s' h hs
    have hf := (deleteNodeFuel_frame _ _ _ _ h).1
    simp only [Tree.deleteNodeFuel, TreeNode.parent] at h
    split at h
    · rename_i hl
      simp only [Except.ok.injEq] at h
      subst h
      refine ⟨hf, hs.congr rfl (fun _ => rfl), ?_, fun _ _ => rfl⟩
      intro m hm
      rw [hl] at hm
      cases hm
    · rename_i r hl
      split at h
      · cases h
      · rename_i node hnode
        split at h
        · cases h
        · rename_i s1 h1
          simp only [Except.ok.injEq] at h
          subst h
          obtain ⟨f1, d1, x1⟩ :=
            recursiveDelete_exact _ r node s.heap ih hnode _ _ _ h1 hs rfl
          obtain ⟨n0, hn0, hid⟩ := hs.index id r hl
          rw [hnode] at hn0
          cases hn0
          subst hid
          have hx : ∀ k, Tree.lookup
              { s1 with
                canvas := (match node.fabricObject with
                  | some _ => s1.canvas.remove r
                  | none => s1.canvas)
                nodes := deleteKey s1.nodes node.id } k = none ↔
              (s.lookup k = none ∨ SubtreeId s.heap r k) := by
            intro k
            show (deleteKey s1.nodes node.id).lookup k = none ↔ _
            rw [lookup_deleteKey, subtreeId_iff hnode k]
            by_cases hk : k = node.id
            · simp [hk]
            · simp only [hk, if_false, false_or]
              show s1.lookup k = none ↔ _
              rw [x1 k]
              constructor
              · rintro (h | ⟨j, c, _, hc, hsub⟩)
                · exact Or.inl h
                · exact Or.inr ⟨c, List.getElem?_mem hc, hsub⟩
              · rintro (h | ⟨c, hc, hsub⟩)
                · exact Or.inl h
                · obtain ⟨j, hjc⟩ := List.mem_iff_getElem?.mp hc
                  have hj : j < node.children.length := by
                    by_contra hcon
                    rw [List.getElem?_eq_none (by omega)] at hjc
                    cases hjc
                  exact Or.inr ⟨j, c, hj, hjc, hsub⟩
          refine ⟨hf, hs.of_exact hf r hx, ?_, ?_⟩
          · intro m hm
            rw [hl] at hm
            cases hm
            exact hx
          · intro hm
            rw [hl] at hm
            cases hm

end SceneTree

/-! ## Trees built by `setRoot` and `addNode` -/

namespace SceneTree

theorem Grows.child {t t' : Tree} {y : TreeNode} (g : Grows t t' y) {r c : Nat}
    (h : Child t.heap r c) : Child t'.heap r c := by
  obtain ⟨n, hn, hc⟩ := h
  obtain ⟨n1, h1, _, _, _, _, h5⟩ := g.old r n hn
  exact ⟨n1, h1, h5 c hc⟩

theorem Grows.reach {t t' : Tree} {y : TreeNode} (g : Grows t t' y) {r d : Nat}
    (h : Reach t.heap r d) : Reach t'.heap r d :=
  Relation.ReflTransGen.mono (fun _ _ hc => g.child hc) h

theorem Built.setRoot (id : String) (options : Options) :
    Built (Tree.new.setRoot id options) id [id] := by
  refine ⟨WF.new.grows (setRoot_grows _ _ _), rfl, ?_, by simp [Tree.setRoot, Tree.new],
    ?_, ?_, ?_⟩
  · simp [Tree.lookup, Tree.setRoot, Tree.new, setKey, List.lookup]
  · intro r n hn
    have hr : r = 0 := by
      by_contra hc
      have : (Tree.new.setRoot id options).heap[r]? = none :=
        List.getElem?_eq_none (by simp [Tree.setRoot, Tree.new]; omega)
      rw [this] at hn
      cases hn
    subst hr
    simp only [Tree.setRoot, Tree.new, List.nil_append, List.length_nil,
      List.getElem?_cons_zero, Option.some.injEq] at hn
    subst hn
    simp [Tree.lookup, Tree.setRoot, Tree.new, setKey, TreeNode.createFabricObject,
      TreeNode.new, List.lookup]
  · intro r hr
    have hr0 : r = 0 := by
      simp [Tree.setRoot, Tree.new] at hr
      exact hr
    subst hr0
    exact Relation.ReflTransGen.refl
  · intro k r hk
    simp only [Tree.lookup, Tree.setRoot, Tree.new, setKey, List.filter_nil, List.nil_append,
      List.lookup] at hk
    split at hk
    · rename_i hb
      simpa using hb
    · cases hk

theorem Built.mono {t : Tree} {rid : String} {ids ids' : List String} (h : Built t rid ids)
    (hsub : ∀ k, k ∈ ids → k ∈ ids') : Built t rid ids' :=
  ⟨h.wf, h.root, h.rootKey, h.nonempty, h.present, h.reach,
    fun k r hk => hsub k (h.keys k r hk)⟩

theorem Built.addNode {t t' : Tree} {rid : String} {ids : List String} (h : Built t rid ids)
    (parentId id : String) (options : Options) (hid : id ∉ ids)
    (ht : t.addNode parentId id options = .ok t') : Built t' rid (id :: ids) := by
  cases hp : t.lookup parentId with
  | none =>
    simp only [Tree.addNode, hp, Except.ok.injEq] at ht
    subst ht
    exact ⟨h.wf.of_frame ⟨rfl, rfl, fun _ => Or.inr rfl⟩, h.root, h.rootKey, h.nonempty,
      h.present, h.reach, fun k r hk => List.mem_cons_of_mem _ (h.keys k r hk)⟩
  | some p =>
    obtain ⟨pn, hn, _⟩ := h.wf.index parentId p hp
    obtain ⟨pf, hf⟩ := h.wf.shape p pn hn
    have g := addNode_grows t t' parentId id options p pn pf hp hn hf ht
    have hplt : p < t.heap.length := by
      by_contra hc
      rw [List.getElem?_eq_none (by omega)] at hn
      cases hn
    have hchild : Child t'.heap p t.heap.length := by
      rw [addNode_eq t parentId id options p pn pf hp hn hf] at ht
      simp only [Except.ok.injEq] at ht
      subst ht
      refine ⟨{ pn with children := pn.children ++ [t.heap.length] }, ?_, by simp⟩
      show ((t.heap.set p _) ++ [_])[p]? = _
      rw [List.getElem?_append_left (by simpa using hplt), List.getElem?_set_self hplt]
    refine ⟨h.wf.grows g, ?_, ?_, ?_, ?_, ?_, ?_⟩
    · rcases g.root with h1 | h1
      · rw [h1]; exact h.root
      · rw [addNode_eq t parentId id options p pn pf hp hn hf] at ht
        simp only [Except.ok.injEq] at ht
        subst ht
        exact h.root
    · rw [g.lookup]
      have hne : rid ≠ (childNode id options pf).id := by
        intro heq
        apply hid
        have := h.keys rid 0 h.rootKey
        rw [heq] at this
        exact this
      simp only [hne, if_false]
      exact h.rootKey
    · rw [g.len]; omega
    · intro r n1 h1
      rw [g.lookup]
      rcases g.old_inv r n1 h1 with ⟨hr, hy⟩ | ⟨_, n, h2, h3, _⟩
      · subst hy
        simp [hr]
      · have hpres := h.present r n h2
        have hne : n1.id ≠ (childNode id options pf).id := by
          intro heq
          rw [h3] at heq
          apply hid
          have := h.keys n.id r hpres
          rw [heq] at this
          exact this
        simp only [hne, if_false]
        rw [h3]
        exact hpres
    · intro r hr
      rw [g.len] at hr
      by_cases hlast : r = t.heap.length
      · subst hlast
        exact Relation.ReflTransGen.tail (g.reach (h.reach p hplt)) hchild
      · exact g.reach (h.reach r (by omega))
    · intro k r hk
      rw [g.lookup] at hk
      by_cases hky : k = (childNode id options pf).id
      · rw [hky]
        exact List.mem_cons_self _ _
      · simp only [hky, if_false] at hk
        exact List.mem_cons_of_mem _ (h.keys k r hk)

theorem Built.run_adds (adds : List (String × String × Options)) :
    ∀ (t : Tree) (rid : String) (ids : List String), Built t rid ids →
      (∀ a ∈ adds, a.2.1 ∉ ids) → (adds.map (fun a => a.2.1)).Nodup →
      ∃ t', t.run (addOps adds) = .ok t' ∧
        Built t' rid ((adds.map (fun a => a.2.1)).reverse ++ ids) := by
  induction adds with
  | nil =>
    intro t rid ids h _ _
    exact ⟨t, rfl, by simpa using h⟩
  | cons a adds ih =>
    intro t rid ids h hfresh hnd
    obtain ⟨t1, h1, _⟩ := step_ok t (Op.addNode a.1 a.2.1 a.2.2) h.wf
    have hb := h.addNode a.1 a.2.1 a.2.2 (hfresh a (List.mem_cons_self _ _)) h1
    rw [List.map_cons, List.nodup_cons] at hnd
    obtain ⟨t2, h2, hb2⟩ := ih t1 rid (a.2.1 :: ids) hb (by
      intro b hbm hmem
      rcases List.mem_cons.mp hmem with h3 | h3
      · apply hnd.1
        rw [← h3]
        exact List.mem_map_of_mem (fun a => a.2.1) hbm
      · exact hfresh b (List.mem_cons_of_mem _ hbm) h3) hnd.2
    refine ⟨t2, ?_, ?_⟩
    · simp only [addOps, List.map_cons, Tree.run]
      rw [show t.step (Op.addNode a.1 a.2.1 a.2.2) = .ok t1 from h1]
      exact h2
    · refine hb2.mono (fun k hk => ?_)
      simp only [List.map_cons, List.reverse_cons, List.append_assoc, List.singleton_append]
      exact hk

/-- A tree built by one `setRoot` and `addNode` calls with pairwise distinct
ids, all different from the root id: the build returns, and the result is well
formed with every object in the index and reachable from the root. -/
theorem build_built (rootId : String) (rootOptions : Options)
    (adds : List (String × String × Options))
    (hnd : (rootId :: adds.map (fun a => a.2.1)).Nodup) :
    ∃ t ids, Tree.build rootId rootOptions adds = .ok t ∧ Built t rootId ids := by
  rw [List.nodup_cons] at hnd
  obtain ⟨t, h1, h2⟩ := Built.run_adds adds _ rootId [rootId]
      (Built.setRoot rootId rootOptions) (by
    intro a ha hmem
    rw [List.mem_singleton] at hmem
    apply hnd.1
    rw [← hmem]
    exact List.mem_map_of_mem (fun a => a.2.1) ha) hnd.2
  exact ⟨t, _, h1, h2⟩

theorem Built.distinct {t : Tree} {rid : String} {ids : List String} (h : Built t rid ids) :
    Distinct t := by
  refine ⟨h.wf.index, ?_, ?_⟩
  · intro r r' n n' h1 h2 hid
    have e1 := h.present r n h1
    have e2 := h.present r' n' h2
    rw [hid, e2] at e1
    exact (Option.some.inj e1).symm
  · intro r n c cn h1 _ _ h3
    rw [h.present r n h1] at h3
    cases h3

end SceneTree

/-! ## The draw session -/

namespace Editor

/-- C1, evaluated where it fails: after a pointer-down at (50, 50) in rectangle
mode with no active object, a move to (10, 10) and then a move to (120, 90),
the rectangle has width 70 and height 40 but left 10 and top 10, whereas
min(50, 120) and min(50, 90) are both 50: `handleMouseMove` lowers `left` and
`top` when the pointer is before the origin and never puts them back. -/
theorem handleMouseMove_corner_not_restored :
    (handleMouseMove (handleMouseMove
      (handleMouseDown (activateRectangleMode State.init) "u1" 50 50) 10 10) 120 90).current
      = some { id := "u1", left := 10, top := 10, width := 70, height := 40,
               fill := "#000", stroke := "black", strokeWidth := 2 } ∧
    min (50 : Int) 120 = 50 ∧ min (50 : Int) 90 = 50 := by
  decide

end Editor

/-! ## The scene tree -/

namespace SceneTree

/-- C2 as stated fails: with a repeated id, `setRoot('r')`, `addNode('r','a')`,
`addNode('a','b')`, `addNode('r','a')` (every parent present), the call
`deleteNode('r')` leaves the entry for `b` in the index. -/
theorem deleteNode_root_repeated_id_leaves_entry :
    ∃ t t', Tree.build "r" {} [("r", "a", {}), ("a", "b", {}), ("r", "a", {})] = .ok t ∧
      t.deleteNode "r" = .ok t' ∧ t'.nodes = [("b", 2)] :=
  ⟨_, _, rfl, rfl, rfl⟩

/-- C2, amended: for every tree built by one `setRoot` followed by `addNode`
calls whose ids are pairwise distinct and different from the root id, the
build returns, `deleteNode(root id)` returns, and the index is empty
afterwards. -/
theorem deleteNode_root_empties_index (rootId : String) (rootOptions : Options)
    (adds : List (String × String × Options))
    (hnd : (rootId :: adds.map (fun a => a.2.1)).Nodup) :
    ∃ t t', Tree.build rootId rootOptions adds = .ok t ∧
      t.deleteNode rootId = .ok t' ∧ t'.nodes = [] := by
  obtain ⟨t, ids, hb, hB⟩ := build_built rootId rootOptions adds hnd
  obtain ⟨t', ht'⟩ := deleteNode_ok t rootId hB.wf
  refine ⟨t, t', hb, ht', nodes_eq_nil_of_lookup _ (fun k => ?_)⟩
  obtain ⟨_, _, hx, _⟩ := deleteNodeFuel_exact _ _ _ _ ht' hB.distinct
  show t'.lookup k = none
  rw [hx 0 hB.rootKey k]
  cases hk : t.lookup k with
  | none => exact Or.inl rfl
  | some r =>
    obtain ⟨n, hn, hid⟩ := hB.wf.index k r hk
    have hr : r < t.heap.length := by
      by_contra hc
      rw [List.getElem?_eq_none (by omega)] at hn
      cases hn
    exact Or.inr ⟨r, n, hB.reach r hr, hn, hid⟩

theorem deleteNode_root_empties_index_witness :
    ∃ t t', Tree.build "root" demoRootOptions demoAdds = .ok t ∧
      t.deleteNode "root" = .ok t' ∧ t'.nodes = [] :=
  deleteNode_root_empties_index "root" demoRootOptions demoAdds (by decide)

/-- C3: for every tree built by one `setRoot` and `addNode` calls with pairwise
distinct ids (all different from the root id) and every node bound in the index
under `id` (a non-root node in particular), `deleteNode(id)` returns; afterwards
the ids of that node and of its descendants are unbound, every other id is
bound exactly as before, and no node object has changed (same options, same
children), nor has the root pointer. -/
theorem deleteNode_removes_exactly_subtree (rootId : String) (rootOptions : Options)
    (adds : List (String × String × Options)) (t : Tree) (id : String) (r : Nat)
    (hnd : (rootId :: adds.map (fun a => a.2.1)).Nodup)
    (hb : Tree.build rootId rootOptions adds = .ok t)
    (hnonroot : id ≠ rootId)
    (hl : t.lookup id = some r) :
    ∃ t', t.deleteNode id = .ok t' ∧
      (∀ k, SubtreeId t.heap r k → t'.lookup k = none) ∧
      (∀ k, ¬ SubtreeId t.heap r k → t'.lookup k = t.lookup k) ∧
      t'.lookup rootId = some 0 ∧
      t'.heap = t.heap ∧ t'.root = t.root := by
  obtain ⟨t0, ids, hb0, hB⟩ := build_built rootId rootOptions adds hnd
  rw [hb] at hb0
  cases hb0
  obtain ⟨t', ht'⟩ := deleteNode_ok t id hB.wf
  obtain ⟨hf, _, hx, _⟩ := deleteNodeFuel_exact _ _ _ _ ht' hB.distinct
  have hout : ∀ k, ¬ SubtreeId t.heap r k → t'.lookup k = t.lookup k := by
    intro k hk
    rcases hf.lookup k with h1 | h1
    · rcases (hx r hl k).mp h1 with h2 | h2
      · rw [h1, h2]
      · exact absurd h2 hk
    · exact h1
  refine ⟨t', ht', fun k hk => (hx r hl k).mpr (Or.inr hk), hout, ?_, hf.heap, hf.root⟩
  rw [hout rootId, hB.rootKey]
  rintro ⟨d, nd, hreach, hd, hid⟩
  have h0 := hB.present d nd hd
  rw [hid, hB.rootKey] at h0
  have hd0 : d = 0 := (Option.some.inj h0).symm
  subst hd0
  rcases hreach.cases_head with h1 | ⟨c, ⟨n, hn, hc⟩, hcd⟩
  · obtain ⟨nr, hnr, hnid⟩ := hB.wf.index id r hl
    subst h1
    rw [hd] at hnr
    cases hnr
    exact hnonroot (hnid.symm.trans hid)
  · obtain ⟨hlt, _⟩ := hB.wf.child r n c hn hc
    -- a descendant of `r` lies after `r` in the store, so it is not the root
    have key : ∀ a b, Reach t.heap a b → a ≤ b := by
      intro a b hab
      induction hab with
      | refl => exact le_refl _
      | tail _ hch ih =>
        obtain ⟨n1, hn1, hc1⟩ := hch
        have := (hB.wf.child _ n1 _ hn1 hc1).1
        omega
    have := key c 0 hcd
    omega

theorem deleteNode_removes_exactly_subtree_witness :
    ∃ t', demoTree.deleteNode "child1" = .ok t' ∧
      (∀ k, SubtreeId demoTree.heap 1 k → t'.lookup k = none) ∧
      (∀ k, ¬ SubtreeId demoTree.heap 1 k → t'.lookup k = demoTree.lookup k) ∧
      t'.lookup "root" = some 0 ∧
      t'.heap = demoTree.heap ∧ t'.root = demoTree.root :=
  deleteNode_removes_exactly_subtree "root" demoRootOptions demoAdds demoTree "child1" 1
    (by decide) rfl (by decide) rfl

end SceneTree

namespace SceneTree

/-- C4, evaluated where it fails: in the tree of `TreeVisualization`, after
`deleteNode('child1')` the id `child1` has left the index, yet the child list
of the root (object 0) still holds object 1, the node whose id is `child1`.
The filter on the parent is guarded by `node.parent`, which no node has. -/
theorem deleteNode_leaves_child_in_parent :
    ∃ t', demoTree.deleteNode "child1" = .ok t' ∧ t'.lookup "child1" = none ∧
      (t'.heap[0]?).map (fun n => n.children) = some [1, 2] ∧
      (t'.heap[1]?).map (fun n => n.id) = some "child1" :=
  ⟨_, rfl, rfl, rfl, rfl⟩

theorem addNode_root (t t' : Tree) (parentId id : String) (options : Options)
    (h : t.addNode parentId id options = .ok t') : t'.root = t.root := by
  simp only [Tree.addNode] at h
  split at h
  · simp only [Except.ok.injEq] at h
    subst h
    rfl
  · split at h
    · cases h
    · split at h
      · simp only [Except.ok.injEq] at h
        subst h
        rfl
      · cases h

theorem rooted_step {t t' : Tree} (h : Rooted t) (op : Op) (hop : op.isSetRoot = false)
    (ht : t.step op = .ok t') : Rooted t' := by
  cases op with
  | setRoot id options => simp [Op.isSetRoot] at hop
  | addNode parentId id options =>
    have hroot := addNode_root t t' parentId id options ht
    cases hp : t.lookup parentId with
    | none =>
      simp only [Tree.step, Tree.addNode, hp, Except.ok.injEq] at ht
      subst ht
      exact ⟨h.wf.of_frame ⟨rfl, rfl, fun _ => Or.inr rfl⟩, h.root, h.reach⟩
    | some p =>
      obtain ⟨pn, hn, _⟩ := h.wf.index parentId p hp
      obtain ⟨pf, hf⟩ := h.wf.shape p pn hn
      have g := addNode_grows t t' parentId id options p pn pf hp hn hf ht
      have hplt : p < t.heap.length := by
        by_contra hc
        rw [List.getElem?_eq_none (by omega)] at hn
        cases hn
      have hchild : Child t'.heap p t.heap.length := by
        have ht2 : t.addNode parentId id options = .ok t' := ht
        rw [addNode_eq t parentId id options p pn pf hp hn hf] at ht2
        simp only [Except.ok.injEq] at ht2
        subst ht2
        refine ⟨{ pn with children := pn.children ++ [t.heap.length] }, ?_, by simp⟩
        show ((t.heap.set p _) ++ [_])[p]? = _
        rw [List.getElem?_append_left (by simpa using hplt), List.getElem?_set_self hplt]
      refine ⟨h.wf.grows g, hroot.trans h.root, ?_⟩
      intro k r hk
      rw [g.lookup] at hk
      by_cases hky : k = (childNode id options pf).id
      · simp only [hky, if_true, Option.some.injEq] at hk
        subst hk
        exact Relation.ReflTransGen.tail (g.reach (h.reach parentId p hp)) hchild
      · simp only [hky, if_false] at hk
        exact g.reach (h.reach k r hk)
  | deleteNode id =>
    have hf := (deleteNodeFuel_frame _ _ _ _ ht).1
    refine ⟨h.wf.of_frame hf, hf.root.trans h.root, ?_⟩
    intro k r hk
    rw [hf.heap]
    rcases hf.lookup k with h1 | h1
    · rw [h1] at hk; cases hk
    · rw [h1] at hk
      exact h.reach k r hk

theorem allBound_step {t t' : Tree} (h : AllBound t) (hw : WF t) (op : Op)
    (hop : op.isDelete = false) (ht : t.step op = .ok t') : AllBound t' := by
  have key : ∀ y, Grows t t' y → AllBound t' := by
    intro y g r n1 h1
    rw [g.lookup]
    rcases g.old_inv r n1 h1 with ⟨_, hy⟩ | ⟨_, n, h2, h3, _⟩
    · subst hy
      simp
    · by_cases hky : n1.id = y.id
      · simp [hky]
      · simp only [hky, if_false]
        rw [h3]
        exact h r n h2
  cases op with
  | deleteNode id => simp [Op.isDelete] at hop
  | setRoot id options =>
    simp only [Tree.step, Except.ok.injEq] at ht
    subst ht
    exact key _ (setRoot_grows t id options)
  | addNode parentId id options =>
    cases hp : t.lookup parentId with
    | none =>
      simp only [Tree.step, Tree.addNode, hp, Except.ok.injEq] at ht
      subst ht
      exact h
    | some p =>
      obtain ⟨pn, hn, _⟩ := hw.index parentId p hp
      obtain ⟨pf, hf⟩ := hw.shape p pn hn
      exact key _ (addNode_grows t t' parentId id options p pn pf hp hn hf ht)

theorem Rooted.run (ops : List Op) :
    ∀ (t : Tree), Rooted t → (∀ op ∈ ops, op.isSetRoot = false) →
      ∃ t', t.run ops = .ok t' ∧ Rooted t' ∧
        ((∀ op ∈ ops, op.isDelete = false) → AllBound t → AllBound t') := by
  induction ops with
  | nil => intro t h _; exact ⟨t, rfl, h, fun _ hb => hb⟩
  | cons op ops ih =>
    intro t h hops
    obtain ⟨t1, h1, _⟩ := step_ok t op h.wf
    have hr1 := rooted_step h op (hops op (List.mem_cons_self _ _)) h1
    obtain ⟨t2, h2, hr2, hb2⟩ := ih t1 hr1 (fun o ho => hops o (List.mem_cons_of_mem _ ho))
    refine ⟨t2, by simp only [Tree.run, h1, h2], hr2, ?_⟩
    intro hnodel hb
    exact hb2 (fun o ho => hnodel o (List.mem_cons_of_mem _ ho))
      (allBound_step hb h.wf op (hnodel op (List.mem_cons_self _ _)) h1)

/-- C5 as stated fails: after `setRoot('a')` and `setRoot('b')` the id `a` is a
key of the index, but no node with id `a` is reachable from the root. -/
theorem second_setRoot_leaves_unreachable_key :
    ((Tree.new.setRoot "a" {}).setRoot "b" {}).lookup "a" = some 0 ∧
    ¬ ((Tree.new.setRoot "a" {}).setRoot "b" {}).ReachableId "a" := by
  refine ⟨rfl, ?_⟩
  rintro ⟨r, hr, d, n, hreach, hd, hid⟩
  have hr1 : r = 1 := (Option.some.inj hr).symm
  subst hr1
  rcases reach_head hreach with h1 | ⟨c, ⟨n1, hn1, hc⟩, _⟩
  · subst h1
    have : n = (TreeNode.new "b" {}).createFabricObject := (Option.some.inj hd).symm
    subst this
    revert hid
    decide
  · have : n1 = (TreeNode.new "b" {}).createFabricObject := (Option.some.inj hn1).symm
    subst this
    simp [TreeNode.new, TreeNode.createFabricObject] at hc

/-- C5, amended: after one `setRoot` on a new tree followed by any sequence of
`addNode` and `deleteNode` calls (the sequence always returns), every id that
is a key of the index is the id of a node reachable from the root through
child links; and when the sequence holds no `deleteNode`, conversely every id
of a node reachable from the root is a key of the index. -/
theorem index_keys_reachable (rootId : String) (rootOptions : Options) (ops : List Op)
    (hops : ∀ op ∈ ops, op.isSetRoot = false) :
    ∃ t, (Tree.new.setRoot rootId rootOptions).run ops = .ok t ∧
      (∀ k, t.lookup k ≠ none → t.ReachableId k) ∧
      ((∀ op ∈ ops, op.isDelete = false) → ∀ k, t.ReachableId k → t.lookup k ≠ none) := by
  have hB := Built.setRoot rootId rootOptions
  have h0 : Rooted (Tree.new.setRoot rootId rootOptions) :=
    ⟨hB.wf, hB.root, fun k r hk => by
      obtain ⟨n, hn, _⟩ := hB.wf.index k r hk
      apply hB.reach
      by_contra hc
      rw [List.getElem?_eq_none (by omega)] at hn
      cases hn⟩
  have hb0 : AllBound (Tree.new.setRoot rootId rootOptions) := by
    intro r n hn
    rw [hB.present r n hn]
    simp
  obtain ⟨t, ht, hr, hb⟩ := Rooted.run ops _ h0 hops
  refine ⟨t, ht, ?_, ?_⟩
  · intro k hk
    cases hl : t.lookup k with
    | none => exact absurd hl hk
    | some r =>
      obtain ⟨n, hn, hid⟩ := hr.wf.index k r hl
      exact ⟨0, hr.root, r, n, hr.reach k r hl, hn, hid⟩
  · rintro hnodel k ⟨_, _, d, n, _, hd, hid⟩
    rw [← hid]
    exact hb hnodel hb0 d n hd

theorem index_keys_reachable_witness :
    ∃ t, (Tree.new.setRoot "root" demoRootOptions).run
        (addOps demoAdds ++ [Op.deleteNode "child1"]) = .ok t ∧
      (∀ k, t.lookup k ≠ none → t.ReachableId k) ∧
      ((∀ op ∈ addOps demoAdds ++ [Op.deleteNode "child1"], op.isDelete = false) →
        ∀ k, t.ReachableId k → t.lookup k ≠ none) :=
  index_keys_reachable "root" demoRootOptions (addOps demoAdds ++ [Op.deleteNode "child1"])
    (by decide)

end SceneTree

namespace SceneTree

/-- C6 as stated fails: on a tree whose root is already set (`setRoot('a')`), the
call `setRoot('b')` reports nothing, moves the root pointer from object 0 to
object 1, binds `b` in the index and puts a second shape on the render
surface. -/
theorem setRoot_on_rooted_tree_replaces_root :
    (Tree.new.setRoot "a" {}).root = some 0 ∧
    ((Tree.new.setRoot "a" {}).setRoot "b" {}).root = some 1 ∧
    ((Tree.new.setRoot "a" {}).setRoot "b" {}).nodes = [("a", 0), ("b", 1)] ∧
    ((Tree.new.setRoot "a" {}).setRoot "b" {}).canvas.objects = [0, 1] ∧
    ((Tree.new.setRoot "a" {}).setRoot "b" {}).console = [] := by
  decide

/-- C6, amended: in every tree state, whether or not a root is already set,
`setRoot(id, options)` reports no error, creates a node with that id and those
options and no children, makes it the root, binds `id` to it in the index
(every other id stays bound as before), and adds its shape at the end of the
render surface; the objects that existed before are unchanged. -/
theorem setRoot_always_creates_root (t : Tree) (id : String) (options : Options) :
    (t.setRoot id options).root = some t.heap.length ∧
    (t.setRoot id options).heap =
      t.heap ++ [(TreeNode.new id options).createFabricObject] ∧
    (t.setRoot id options).lookup id = some t.heap.length ∧
    (∀ k, k ≠ id → (t.setRoot id options).lookup k = t.lookup k) ∧
    (t.setRoot id options).canvas.objects = t.canvas.objects ++ [t.heap.length] ∧
    (t.setRoot id options).console = t.console := by
  refine ⟨rfl, rfl, ?_, ?_, rfl, rfl⟩
  · show (setKey t.nodes id t.heap.length).lookup id = _
    rw [lookup_setKey]
    simp
  · intro k hk
    show (setKey t.nodes id t.heap.length).lookup k = _
    rw [lookup_setKey]
    simp [hk, Tree.lookup]

/-- C7 as stated fails: in the tree of `TreeVisualization`, where `root` and
`child1` are both in the index, `addNode('root', 'child1', {})` reports
nothing, creates object 4, rebinds `child1` from object 1 to object 4, appends
object 4 to the child list of the root and adds a shape to the render
surface. -/
theorem addNode_repeated_id_is_accepted :
    demoTree.lookup "root" = some 0 ∧ demoTree.lookup "child1" = some 1 ∧
    ∃ t', demoTree.addNode "root" "child1" {} = .ok t' ∧
      t'.console = demoTree.console ∧ t'.lookup "child1" = some 4 ∧
      (t'.heap[0]?).map (fun n => n.children) = some [1, 2, 4] ∧
      (demoTree.heap[0]?).map (fun n => n.children) = some [1, 2] ∧
      t'.canvas.objects = [0, 1, 2, 3, 4] ∧ demoTree.canvas.objects = [0, 1, 2, 3] :=
  ⟨rfl, rfl, _, rfl, rfl, rfl, rfl, rfl, rfl, rfl⟩

/-- C7, amended: in every tree state in which `parentId` is in the index (bound
to a node with a shape) and `id` is already a key of the index,
`addNode(parentId, id, options)` reports no error and succeeds: it creates a
new node with that id, appends it to the child list of the parent, rebinds
`id` to the new node (every other id stays bound as before), and adds the new
shape at the end of the render surface. -/
theorem addNode_repeated_id_rebinds (t : Tree) (parentId id : String) (options : Options)
    (p old : Nat) (pn : TreeNode) (pf : Rect)
    (hp : t.lookup parentId = some p) (hn : t.heap[p]? = some pn)
    (hf : pn.fabricObject = some pf) (_hdup : t.lookup id = some old) :
    ∃ t', t.addNode parentId id options = .ok t' ∧
      t'.console = t.console ∧
      t'.heap[t.heap.length]? = some (childNode id options pf) ∧
      t'.heap[p]? = some { pn with children := pn.children ++ [t.heap.length] } ∧
      t'.lookup id = some t.heap.length ∧
      (∀ k, k ≠ id → t'.lookup k = t.lookup k) ∧
      t'.canvas.objects = t.canvas.objects ++ [t.heap.length] ∧
      t'.root = t.root := by
  have hplt : p < t.heap.length := by
    by_contra hc
    rw [List.getElem?_eq_none (by omega)] at hn
    cases hn
  refine ⟨_, addNode_eq t parentId id options p pn pf hp hn hf, rfl, ?_, ?_, ?_, ?_, rfl, rfl⟩
  · show ((t.heap.set p _) ++ [_])[t.heap.length]? = _
    rw [List.getElem?_append_right (by simp)]
    simp
  · show ((t.heap.set p _) ++ [_])[p]? = _
    rw [List.getElem?_append_left (by simpa using hplt), List.getElem?_set_self hplt]
  · show (setKey t.nodes id t.heap.length).lookup id = _
    rw [lookup_setKey]
    simp
  · intro k hk
    show (setKey t.nodes id t.heap.length).lookup k = _
    rw [lookup_setKey]
    simp [hk, Tree.lookup]

theorem addNode_repeated_id_rebinds_witness :
    ∃ t', demoTree.addNode "root" "child1" {} = .ok t' ∧
      t'.console = demoTree.console ∧
      t'.heap[demoTree.heap.length]? = some (childNode "child1" {} demoRootShape) ∧
      t'.heap[0]? = some
        { demoRootNode with children := demoRootNode.children ++ [demoTree.heap.length] } ∧
      t'.lookup "child1" = some demoTree.heap.length ∧
      (∀ k, k ≠ "child1" → t'.lookup k = demoTree.lookup k) ∧
      t'.canvas.objects = demoTree.canvas.objects ++ [demoTree.heap.length] ∧
      t'.root = demoTree.root :=
  addNode_repeated_id_rebinds demoTree "root" "child1" {} 0 1 demoRootNode demoRootShape
    rfl rfl rfl rfl

/-- What holds of C8: in every tree state, when `parentId` is not a key of the
index and is not a name inherited from `Object.prototype`,
`addNode(parentId, id, options)` reports "Parent node not found" and leaves
the index (same entries, same size), the root pointer, every node object
(hence every child list) and the render surface unchanged. -/
theorem addNode_parent_missing_no_change (t : Tree) (parentId id : String)
    (options : Options) (h : t.lookup parentId = none)
    (_hplain : inheritedKey parentId = false) :
    ∃ t', t.addNode parentId id options = .ok t' ∧
      t'.console = t.console ++ ["Parent node not found"] ∧
      t'.nodes = t.nodes ∧ t'.nodes.length = t.nodes.length ∧
      t'.root = t.root ∧ t'.heap = t.heap ∧ t'.canvas = t.canvas := by
  refine ⟨{ t with console := t.console ++ ["Parent node not found"] }, ?_,
    rfl, rfl, rfl, rfl, rfl, rfl⟩
  simp only [Tree.addNode, h]

/-- C8, evaluated where it fails: in the tree of `TreeVisualization` the name
`toString` is not a key of the index, yet the read `this.nodes['toString']`
is true (the inherited function), so for `addNode('toString', 'x', {})` the
guard `if (!parentNode)` does not fire and no missing parent is reported; the
next statement, `parentNode.children.push`, throws a `TypeError`. -/
theorem inherited_parent_passes_guard :
    demoTree.lookup "toString" = none ∧ inheritedKey "toString" = true ∧
    demoTree.truthy "toString" = true := by
  decide

/-- C9: in every tree state in which `parentId` is in the index (bound to a
node whose shape is `pf`), and for every options bag, `addNode` succeeds; the
shape of the new child has left = the parent's current left + 60 and top = the
parent's current top + 60, whatever `options.x` and `options.y` are, and the
child is the last element of the parent's child list. -/
theorem addNode_places_child_at_offset (t : Tree) (parentId id : String)
    (options : Options) (p : Nat) (pn : TreeNode) (pf : Rect)
    (hp : t.lookup parentId = some p) (hn : t.heap[p]? = some pn)
    (hf : pn.fabricObject = some pf) :
    ∃ t' child shape parent, t.addNode parentId id options = .ok t' ∧
      t'.lookup id = some t.heap.length ∧
      t'.heap[t.heap.length]? = some child ∧ child.id = id ∧ child.options = options ∧
      child.fabricObject = some shape ∧
      shape.left = pf.left + 60 ∧ shape.top = pf.top + 60 ∧
      t'.heap[p]? = some parent ∧ parent.fabricObject = some pf ∧
      parent.children = pn.children ++ [t.heap.length] ∧
      parent.children.getLast? = some t.heap.length := by
  have hplt : p < t.heap.length := by
    by_contra hc
    rw [List.getElem?_eq_none (by omega)] at hn
    cases hn
  refine ⟨_, childNode id options pf, _,
    { pn with children := pn.children ++ [t.heap.length] },
    addNode_eq t parentId id options p pn pf hp hn hf, ?_, ?_, rfl, rfl, rfl, rfl, rfl,
    ?_, hf, rfl, ?_⟩
  · show (setKey t.nodes id t.heap.length).lookup id = _
    rw [lookup_setKey]
    simp
  · show ((t.heap.set p _) ++ [_])[t.heap.length]? = _
    rw [List.getElem?_append_right (by simp)]
    simp
  · show ((t.heap.set p _) ++ [_])[p]? = _
    rw [List.getElem?_append_left (by simpa using hplt), List.getElem?_set_self hplt]
  · simp

theorem addNode_places_child_at_offset_witness :
    ∃ t' child shape parent,
      demoTree.addNode "child1" "x" { x := some 7, y := some 9 } = .ok t' ∧
      t'.lookup "x" = some demoTree.heap.length ∧
      t'.heap[demoTree.heap.length]? = some child ∧ child.id = "x" ∧
      child.options = { x := some 7, y := some 9 } ∧
      child.fabricObject = some shape ∧
      shape.left = demoChild1Shape.left + 60 ∧ shape.top = demoChild1Shape.top + 60 ∧
      t'.heap[1]? = some parent ∧
      parent.fabricObject = some demoChild1Shape ∧
      parent.children = demoChild1Node.children ++ [demoTree.heap.length] ∧
      parent.children.getLast? = some demoTree.heap.length :=
  addNode_places_child_at_offset demoTree "child1" "x" { x := some 7, y := some 9 } 1
    demoChild1Node demoChild1Shape rfl rfl rfl

/-- C10 as stated fails: in the tree of `TreeVisualization`, `deleteNode('root')`
returns with the root pointer still set to object 0, the root node. -/
theorem deleteNode_root_keeps_root_pointer :
    demoTree.root = some 0 ∧ (demoTree.heap[0]?).map (fun n => n.id) = some "root" ∧
    ∃ t', demoTree.deleteNode "root" = .ok t' ∧ t'.root = some 0 :=
  ⟨rfl, rfl, _, rfl, rfl⟩

/-- C10, amended: in every state reached from a new tree by `setRoot`, `addNode`
and `deleteNode` calls, `deleteNode` called with the root's id returns, removes
that id from the index, and leaves the root pointer as it was: still set, to
the same node object, which is itself unchanged. -/
theorem deleteNode_root_id_unbinds_only (ops : List Op) (t : Tree) (r : Nat) (n : TreeNode)
    (hrun : Tree.new.run ops = .ok t) (hroot : t.root = some r)
    (hn : t.heap[r]? = some n) :
    ∃ t', t.deleteNode n.id = .ok t' ∧ t'.lookup n.id = none ∧
      t'.root = some r ∧ t'.heap[r]? = some n := by
  have hw := run_wf ops t hrun
  obtain ⟨t', ht'⟩ := deleteNode_ok t n.id hw
  obtain ⟨hf, hnone⟩ := deleteNodeFuel_frame _ _ _ _ ht'
  exact ⟨t', ht', hnone, hf.root.trans hroot, by rw [hf.heap]; exact hn⟩

theorem deleteNode_root_id_unbinds_only_witness :
    ∃ t', demoTree.deleteNode "root" = .ok t' ∧ t'.lookup "root" = none ∧
      t'.root = some 0 ∧ t'.heap[0]? = some demoRootNode :=
  deleteNode_root_id_unbinds_only
    (Op.setRoot "root" demoRootOptions :: addOps demoAdds) demoTree 0 demoRootNode
    rfl rfl rfl

end SceneTree

/-! ## The layer list and the draw session -/

namespace Editor

theorem step_layers (s : State) (e : Event) :
    (s.step e).layers =
      (s.layers ++ s.addedBy e).filter (fun l => decide (l.id ∉ s.removedBy e)) := by
  cases e with
  | mouseDown id px py =>
    by_cases hc : (s.activeMode != some "rectangle" || s.activeObject.isSome) = true
    · simp [State.step, handleMouseDown, State.addedBy, State.removedBy, State.accepts, hc]
    · simp [State.step, handleMouseDown, State.addedBy, State.removedBy, State.accepts, hc]
  | mouseMove px py =>
    simp only [State.step, handleMouseMove, State.addedBy, State.removedBy]
    split
    · split
      · simp
      · split <;> simp
    · simp
  | mouseUp => simp [State.step, handleMouseUp, State.addedBy, State.removedBy]
  | activateRectangleMode =>
    simp [State.step, activateRectangleMode, State.addedBy, State.removedBy]
  | deactivateModes => simp [State.step, deactivateModes, State.addedBy, State.removedBy]
  | layerClick id =>
    simp only [State.step, handleLayerClick, State.addedBy, State.removedBy]
    split <;> simp
  | deleteLayer id =>
    simp only [State.step, handleDeleteLayer, State.addedBy, State.removedBy]
    split
    · rename_i h
      simp [h]
    · rename_i l h
      simp only [h, canvasRemove, Option.isSome_some, if_true, List.append_nil]
      apply List.filter_congr
      intro x _
      simp only [bne, List.mem_singleton, decide_not]
      rfl
  | keyDown key =>
    simp only [State.step, handleKeyDown, State.addedBy, State.removedBy]
    by_cases hk : key = "Backspace" ∨ key = "Delete"
    · simp only [hk, if_true]
      cases ha : s.activeObject with
      | none => simp
      | some h =>
        cases hs : s.store[h]? with
        | none => simp [hs]
        | some r =>
          simp only [hs, canvasRemove, List.append_nil]
          apply List.filter_congr
          intro x _
          simp only [bne, List.mem_singleton, decide_not]
          rfl
    · simp [hk]
  | colorChange hex =>
    simp only [State.step, handleColorChange, State.addedBy, State.removedBy]
    split
    · simp
    · split <;> simp
  | canvasSelect h =>
    cases h with
    | none => simp [State.step, State.addedBy, State.removedBy]
    | some h =>
      simp only [State.step, State.addedBy, State.removedBy]
      split <;> simp

theorem downIds_cons (e : Event) (es : List Event) :
    downIds (e :: es) = downIds [e] ++ downIds es := by
  cases e <;> simp [downIds]

theorem addedBy_sublist (s : State) (e : Event) :
    ((s.addedBy e).map (fun l => l.id)).Sublist (downIds [e]) := by
  cases e <;> simp [State.addedBy, downIds]
  split <;> simp_all

theorem added_sublist (evs : List Event) :
    ∀ s : State, ((s.added evs).map (fun l => l.id)).Sublist (downIds evs) := by
  induction evs with
  | nil => intro s; simp [State.added, downIds]
  | cons e es ih =>
    intro s
    rw [downIds_cons]
    simp only [State.added, List.map_append]
    exact List.Sublist.append (addedBy_sublist s e) (ih _)

theorem removedBy_used (s : State) (e : Event) (used : List String) (h : Used s used) :
    ∀ x ∈ s.removedBy e, x ∈ used := by
  intro x hx
  cases e with
  | deleteLayer id =>
    simp only [State.removedBy] at hx
    split at hx
    · rename_i hf
      simp only [List.mem_singleton] at hx
      subst hx
      obtain ⟨l, hl⟩ := Option.isSome_iff_exists.mp hf
      have hmem := List.mem_of_find?_eq_some hl
      have hid := List.find?_some hl
      simp only [beq_iff_eq] at hid
      rw [← hid]
      exact h.1 l hmem
    · cases hx
  | keyDown key =>
    simp only [State.removedBy] at hx
    split at hx
    · split at hx
      · cases hx
      · split at hx
        · cases hx
        · rename_i r hr
          simp only [List.mem_singleton] at hx
          subst hx
          exact h.2 r (List.getElem?_mem hr)
    · cases hx
  | _ => simp [State.removedBy] at hx

theorem step_used (s : State) (e : Event) (used : List String) (h : Used s used) :
    Used (s.step e) (downIds [e] ++ used) := by
  constructor
  · intro l hl
    rw [step_layers] at hl
    have hl2 := (List.mem_filter.mp hl).1
    rcases List.mem_append.mp hl2 with h1 | h1
    · exact List.mem_append_right _ (h.1 l h1)
    · exact List.mem_append_left _
        ((addedBy_sublist s e).subset (List.mem_map_of_mem (fun l => l.id) h1))
  · intro r hr
    cases e with
    | mouseDown id px py =>
      simp only [State.step, handleMouseDown] at hr
      split at hr
      · exact List.mem_append_right _ (h.2 r hr)
      · simp only [List.mem_append, List.mem_singleton] at hr
        rcases hr with h1 | h1
        · exact List.mem_append_right _ (h.2 r h1)
        · subst h1
          simp [downIds]
    | mouseMove px py =>
      apply List.mem_append_right
      simp only [State.step, handleMouseMove] at hr
      split at hr
      · split at hr
        · exact h.2 r hr
        · split at hr
          · exact h.2 r hr
          · rename_i rect hrect
            rcases List.mem_or_eq_of_mem_set hr with h1 | h1
            · exact h.2 r h1
            · have hid : r.id = rect.id := by
                subst h1
                split <;> split <;> rfl
              rw [hid]
              exact h.2 rect (List.getElem?_mem hrect)
      · exact h.2 r hr
    | colorChange hex =>
      apply List.mem_append_right
      simp only [State.step, handleColorChange] at hr
      split at hr
      · exact h.2 r hr
      · split at hr
        · exact h.2 r hr
        · rename_i rect hrect
          rcases List.mem_or_eq_of_mem_set hr with h1 | h1
          · exact h.2 r h1
          · subst h1
            exact h.2 rect (List.getElem?_mem hrect)
    | mouseUp => exact List.mem_append_right _ (h.2 r hr)
    | activateRectangleMode => exact List.mem_append_right _ (h.2 r hr)
    | deactivateModes => exact List.mem_append_right _ (h.2 r hr)
    | layerClick id =>
      apply List.mem_append_right
      simp only [State.step, handleLayerClick] at hr
      split at hr <;> exact h.2 r hr
    | deleteLayer id =>
      apply List.mem_append_right
      simp only [State.step, handleDeleteLayer] at hr
      split at hr <;> exact h.2 r hr
    | keyDown key =>
      apply List.mem_append_right
      simp only [State.step, handleKeyDown] at hr
      split at hr
      · split at hr
        · exact h.2 r hr
        · split at hr <;> exact h.2 r hr
      · exact h.2 r hr
    | canvasSelect o =>
      apply List.mem_append_right
      cases o with
      | none => exact h.2 r hr
      | some k =>
        simp only [State.step] at hr
        split at hr <;> exact h.2 r hr

theorem run_layers (evs : List Event) :
    ∀ (s : State) (used : List String), Used s used → (downIds evs).Nodup →
      (∀ x ∈ downIds evs, x ∉ used) →
      (s.run evs).layers =
        (s.layers ++ s.added evs).filter (fun l => decide (l.id ∉ s.removed evs)) := by
  induction evs with
  | nil =>
    intro s used _ _ _
    simp [State.run, State.added, State.removed]
  | cons e es ih =>
    intro s used hu hnd hfresh
    rw [downIds_cons] at hnd hfresh
    have hnd2 := List.nodup_append.mp hnd
    have ih2 := ih (s.step e) (downIds [e] ++ used) (step_used s e used hu) hnd2.2.1 (by
      intro x hx hmem
      rcases List.mem_append.mp hmem with h1 | h1
      · exact hnd2.2.2 h1 hx
      · exact hfresh x (List.mem_append_right _ hx) h1)
    have hkeep : ∀ l ∈ (s.step e).added es, l.id ∉ s.removedBy e := by
      intro l hl hmem
      have h1 := (added_sublist es (s.step e)).subset (List.mem_map_of_mem (fun l => l.id) hl)
      exact hfresh l.id (List.mem_append_right _ h1) (removedBy_used s e used hu l.id hmem)
    simp only [State.run, State.added, State.removed]
    rw [ih2, step_layers, ← List.append_assoc, List.filter_append,
      List.filter_append (s.layers ++ s.addedBy e), List.filter_filter]
    congr 1
    · apply List.filter_congr
      intro l _
      simp only [List.mem_append, not_or, Bool.decide_and, Bool.and_comm]
    · apply List.filter_congr
      intro l hl
      have := hkeep l hl
      simp [this]

/-- C13: for every sequence of events in which the ids given to the
pointer-downs are fresh (pairwise distinct), the layer list afterwards is the
list of the entries added by the accepted pointer-downs, in the order they
were added, without those whose id was removed by `handleDeleteLayer` or by a
delete key on the active object; no id occurs twice in it. -/
theorem layers_are_added_minus_removed (evs : List Event) (hfresh : (downIds evs).Nodup) :
    (State.init.run evs).layers =
      (State.init.added evs).filter (fun l => decide (l.id ∉ State.init.removed evs)) ∧
    ((State.init.run evs).layers.map (fun l => l.id)).Nodup := by
  have h := run_layers evs State.init [] ⟨by simp [State.init], by simp [State.init]⟩ hfresh
    (by simp)
  have h2 : (State.init.run evs).layers =
      (State.init.added evs).filter (fun l => decide (l.id ∉ State.init.removed evs)) := by
    rw [h]
    simp [State.init]
  refine ⟨h2, ?_⟩
  rw [h2]
  exact (((List.filter_sublist _).map _).trans (added_sublist evs State.init)).nodup hfresh

theorem layers_are_added_minus_removed_witness :
    (State.init.run demoEvents).layers =
      (State.init.added demoEvents).filter
        (fun l => decide (l.id ∉ State.init.removed demoEvents)) ∧
    ((State.init.run demoEvents).layers.map (fun l => l.id)).Nodup :=
  layers_are_added_minus_removed demoEvents (by decide)

/-- C14: for every editor state and colour `hex`, `handleColorChange(hex)` sets
the current draw colour to `hex`, so that a pointer-down accepted while that
colour is current creates a rectangle with fill `hex`; when an object is
active its fill becomes `hex` and no other object changes; when no object is
active no object changes.  The layer list, the surface and the selection are
unchanged. -/
theorem handleColorChange_sets_colour (s : State) (hex : String) :
    (handleColorChange s hex).selectedColor = hex ∧
    (∀ (s2 : State) (id : String) (px py : Int),
      s2.selectedColor = (handleColorChange s hex).selectedColor →
      s2.activeMode = some "rectangle" → s2.activeObject = none →
      (handleMouseDown s2 id px py).current.map (fun r => r.fill) = some hex) ∧
    (∀ (h : Nat) (rect : Rect), s.activeObject = some h → s.store[h]? = some rect →
      (handleColorChange s hex).store[h]? = some { rect with fill := hex } ∧
      ∀ j, j ≠ h → (handleColorChange s hex).store[j]? = s.store[j]?) ∧
    (s.activeObject = none → (handleColorChange s hex).store = s.store) ∧
    (handleColorChange s hex).layers = s.layers ∧
    (handleColorChange s hex).objects = s.objects ∧
    (handleColorChange s hex).activeObject = s.activeObject := by
  have hsel : (handleColorChange s hex).selectedColor = hex := by
    simp only [handleColorChange]
    split
    · rfl
    · split <;> rfl
  refine ⟨hsel, ?_, ?_, ?_, ?_, ?_, ?_⟩
  · intro s2 id px py h1 h2 h3
    rw [hsel] at h1
    simp [handleMouseDown, h2, h3, State.current, h1]
  · intro h rect ha hs
    have hlt : h < s.store.length := by
      by_contra hc
      rw [List.getElem?_eq_none (by omega)] at hs
      cases hs
    simp only [handleColorChange, ha, hs]
    refine ⟨by rw [List.getElem?_set_self hlt], fun j hj => ?_⟩
    rw [List.getElem?_set_ne (fun h' => hj h'.symm)]
  · intro ha
    simp [handleColorChange, ha]
  · simp only [handleColorChange]
    split
    · rfl
    · split <;> rfl
  · simp only [handleColorChange]
    split
    · rfl
    · split <;> rfl
  · simp only [handleColorChange]
    split
    · rfl
    · split <;> rfl

/-- C15: in every editor state in rectangle mode with no active object, a
pointer-down at `(px, py)` puts the session in the dragging state with origin
`(px, py)`, creates one rectangle with left `px`, top `py`, width 0, height 0
and fill the selected colour, appends one entry for it to the layer list and
the rectangle to the render surface, and leaves the earlier layer entries, the
earlier rectangles and the earlier surface objects as they were. -/
theorem handleMouseDown_starts_session (s : State) (id : String) (px py : Int)
    (hmode : s.activeMode = some "rectangle") (hactive : s.activeObject = none) :
    (handleMouseDown s id px py).isDrawing = true ∧
    (handleMouseDown s id px py).rectangle = some s.store.length ∧
    (handleMouseDown s id px py).originX = px ∧
    (handleMouseDown s id px py).originY = py ∧
    (handleMouseDown s id px py).store = s.store ++
      [{ id := id, left := px, top := py, width := 0, height := 0,
         fill := s.selectedColor, stroke := "black", strokeWidth := 2 }] ∧
    (handleMouseDown s id px py).layers = s.layers ++
      [{ id := id, type := "rectangle", object := s.store.length }] ∧
    (handleMouseDown s id px py).objects = s.objects ++ [s.store.length] := by
  simp [handleMouseDown, hmode, hactive]

theorem handleMouseDown_starts_session_witness :
    (handleMouseDown (activateRectangleMode State.init) "u1" 50 50).isDrawing = true ∧
    (handleMouseDown (activateRectangleMode State.init) "u1" 50 50).rectangle = some 0 ∧
    (handleMouseDown (activateRectangleMode State.init) "u1" 50 50).originX = 50 ∧
    (handleMouseDown (activateRectangleMode State.init) "u1" 50 50).originY = 50 ∧
    (handleMouseDown (activateRectangleMode State.init) "u1" 50 50).store = [] ++
      [{ id := "u1", left := 50, top := 50, width := 0, height := 0,
         fill := "#000", stroke := "black", strokeWidth := 2 }] ∧
    (handleMouseDown (activateRectangleMode State.init) "u1" 50 50).layers = [] ++
      [{ id := "u1", type := "rectangle", object := 0 }] ∧
    (handleMouseDown (activateRectangleMode State.init) "u1" 50 50).objects = [] ++ [0] :=
  handleMouseDown_starts_session (activateRectangleMode State.init) "u1" 50 50 rfl rfl

/-- The guard of `handleMouseDown`: when the mode is not `rectangle` or some
object is active, the handler returns at once and the state is the same. -/
theorem handleMouseDown_guard (s : State) (id : String) (px py : Int)
    (h : s.activeMode ≠ some "rectangle" ∨ s.activeObject ≠ none) :
    handleMouseDown s id px py = s := by
  simp only [handleMouseDown]
  split
  · rfl
  · rename_i hc
    exfalso
    apply hc
    rcases h with h | h
    · simp [h]
    · cases ha : s.activeObject with
      | none => exact absurd ha h
      | some _ => simp

/-- C18: in every editor state in which the mode is not `rectangle` or some
object is active, the session being the one the claim names (not drawing, no
in-progress rectangle), a pointer-down is a no-op: the layer list, the objects
on the render surface, the rectangles, the recorded origin and the session
state are unchanged, so the session is still not drawing and has no
in-progress rectangle; and a pointer-move that follows changes nothing
either, in particular no shape's geometry. -/
theorem handleMouseDown_ignored (s : State) (id : String) (px py : Int)
    (h : s.activeMode ≠ some "rectangle" ∨ s.activeObject ≠ none)
    (hidle : s.isDrawing = false) (hrect : s.rectangle = none) :
    handleMouseDown s id px py = s ∧
    (handleMouseDown s id px py).layers = s.layers ∧
    (handleMouseDown s id px py).objects = s.objects ∧
    (handleMouseDown s id px py).store = s.store ∧
    (handleMouseDown s id px py).originX = s.originX ∧
    (handleMouseDown s id px py).originY = s.originY ∧
    (handleMouseDown s id px py).isDrawing = false ∧
    (handleMouseDown s id px py).rectangle = none ∧
    (∀ qx qy, handleMouseMove (handleMouseDown s id px py) qx qy = s) ∧
    (∀ qx qy, (handleMouseMove (handleMouseDown s id px py) qx qy).store = s.store) := by
  have h1 := handleMouseDown_guard s id px py h
  have h2 : ∀ qx qy, handleMouseMove s qx qy = s := by
    intro qx qy
    simp [handleMouseMove, hidle]
  rw [h1]
  exact ⟨rfl, rfl, rfl, rfl, rfl, rfl, hidle, hrect, h2, fun qx qy => by rw [h2]⟩

theorem handleMouseDown_ignored_witness :
    handleMouseDown demoSelected "u1" 50 50 = demoSelected ∧
    (handleMouseDown demoSelected "u1" 50 50).layers = demoSelected.layers ∧
    (handleMouseDown demoSelected "u1" 50 50).objects = demoSelected.objects ∧
    (handleMouseDown demoSelected "u1" 50 50).store = demoSelected.store ∧
    (handleMouseDown demoSelected "u1" 50 50).originX = demoSelected.originX ∧
    (handleMouseDown demoSelected "u1" 50 50).originY = demoSelected.originY ∧
    (handleMouseDown demoSelected "u1" 50 50).isDrawing = false ∧
    (handleMouseDown demoSelected "u1" 50 50).rectangle = none ∧
    (∀ qx qy, handleMouseMove (handleMouseDown demoSelected "u1" 50 50) qx qy =
      demoSelected) ∧
    (∀ qx qy, (handleMouseMove (handleMouseDown demoSelected "u1" 50 50) qx qy).store =
      demoSelected.store) :=
  handleMouseDown_ignored demoSelected "u1" 50 50 (Or.inr (by decide)) rfl rfl

end Editor

namespace SceneTree

/-! ## Serialisation: the loop over the children -/

theorem addList_eq_map (parentId id : String) (options : Options) (cs : List NodeRep) :
    NodeRep.addList parentId id options cs = cs.map (NodeRep.add parentId id options) := by
  induction cs with
  | nil => simp [NodeRep.addList]
  | cons c cs ih => simp [NodeRep.addList, ih]

theorem removeList_eq (id : String) (cs : List NodeRep) :
    NodeRep.removeList id cs =
      (cs.filter (fun c => decide (c.id ≠ id))).map (NodeRep.remove id) := by
  induction cs with
  | nil => simp [NodeRep.removeList]
  | cons c cs ih =>
    by_cases hc : c.id = id
    · simp [NodeRep.removeList, hc, ih]
    · simp [NodeRep.removeList, hc, ih]

theorem entriesList_eq (cs : List NodeRep) :
    NodeRep.entriesList cs = cs.flatMap NodeRep.entries := by
  induction cs with
  | nil => simp [NodeRep.entriesList]
  | cons c cs ih => simp [NodeRep.entriesList, ih]

/-- The value of a traversal that returned, `none` otherwise. -/
theorem traverseChildren_ok (trav : Nat → Except Err (Option NodeRep))
    (g : Nat → Option NodeRep) (cs : List Nat) (h : ∀ c ∈ cs, trav c = .ok (g c)) :
    traverseChildren trav cs = .ok (cs.filterMap g) := by
  induction cs with
  | nil => rfl
  | cons c cs ih =>
    have hc := h c (List.mem_cons_self _ _)
    have ih2 := ih (fun c' hc' => h c' (List.mem_cons_of_mem _ hc'))
    simp only [traverseChildren, hc, ih2]
    cases hg : g c with
    | none => simp [List.filterMap_cons, hg]
    | some rep => simp [List.filterMap_cons, hg]

theorem traverseChildren_inv (trav : Nat → Except Err (Option NodeRep)) (cs : List Nat)
    (reps : List NodeRep) (h : traverseChildren trav cs = .ok reps) :
    ∃ g : Nat → Option NodeRep, (∀ c ∈ cs, trav c = .ok (g c)) ∧ reps = cs.filterMap g := by
  refine ⟨fun c => match trav c with
    | .ok x => x
    | .error _ => none, ?_, ?_⟩
  · induction cs generalizing reps with
    | nil => intro c hc; cases hc
    | cons c cs ih =>
      intro c' hc'
      simp only [traverseChildren] at h
      split at h
      · cases h
      · rename_i x hx
        split at h
        · cases h
        · rename_i rest hrest
          rcases List.mem_cons.mp hc' with h1 | h1
          · subst h1
            simp [hx]
          · exact ih rest hrest c' h1
  · induction cs generalizing reps with
    | nil =>
      simp only [traverseChildren, Except.ok.injEq] at h
      simp [h]
    | cons c cs ih =>
      simp only [traverseChildren] at h
      split at h
      · cases h
      · rename_i x hx
        split at h
        · cases h
        · rename_i rest hrest
          have := ih rest hrest
          cases x with
          | none =>
            simp only [Except.ok.injEq] at h
            simp [List.filterMap_cons, hx, ← this, h]
          | some rep =>
            simp only [Except.ok.injEq] at h
            simp [List.filterMap_cons, hx, ← this, h]

/-! ## Serialisation: one node -/

theorem traverse_some (t : Tree) (fuel r : Nat) (rep : NodeRep)
    (h : t.traverse (fuel + 1) r = .ok (some rep)) :
    ∃ n m reps, t.heap[r]? = some n ∧ t.lookup n.id = some m ∧
      traverseChildren (t.traverse fuel) n.children = .ok reps ∧
      rep = NodeRep.mk n.id n.options reps := by
  simp only [Tree.traverse] at h
  split at h
  · cases h
  · rename_i n hn
    split at h
    · cases h
    · rename_i m hm
      split at h
      · cases h
      · rename_i reps hreps
        simp only [Except.ok.injEq, Option.some.injEq] at h
        exact ⟨n, m, reps, hn, hm, hreps, h.symm⟩

theorem traverse_none (t : Tree) (fuel r : Nat)
    (h : t.traverse fuel r = .ok none) :
    ∃ n, t.heap[r]? = some n ∧ t.lookup n.id = none := by
  cases fuel with
  | zero => simp [Tree.traverse] at h
  | succ fuel =>
    simp only [Tree.traverse] at h
    split at h
    · cases h
    · rename_i n hn
      split at h
      · rename_i hm
        exact ⟨n, hn, hm⟩
      · split at h
        · cases h
        · cases h

theorem traverse_live (t : Tree) (fuel r m : Nat) (n : TreeNode) (reps : List NodeRep)
    (hn : t.heap[r]? = some n) (hm : t.lookup n.id = some m)
    (hreps : traverseChildren (t.traverse fuel) n.children = .ok reps) :
    t.traverse (fuel + 1) r = .ok (some (NodeRep.mk n.id n.options reps)) := by
  simp only [Tree.traverse, hn, hm, hreps]

theorem traverse_dead (t : Tree) (fuel r : Nat) (n : TreeNode)
    (hn : t.heap[r]? = some n) (hm : t.lookup n.id = none) :
    t.traverse (fuel + 1) r = .ok none := by
  simp only [Tree.traverse, hn, hm]

theorem traverse_id (t : Tree) (fuel r : Nat) (rep : NodeRep) (n : TreeNode)
    (h : t.traverse fuel r = .ok (some rep)) (hn : t.heap[r]? = some n) :
    rep.id = n.id ∧ rep.options = n.options := by
  cases fuel with
  | zero => simp [Tree.traverse] at h
  | succ fuel =>
    obtain ⟨n', m, reps, hn', _, _, hrep⟩ := traverse_some t fuel r rep h
    rw [hn] at hn'
    cases hn'
    subst hrep
    exact ⟨rfl, rfl⟩

/-- On a well-formed state `traverse` returns when the bound exceeds the number
of objects after `r`. -/
theorem traverse_ok (t : Tree) (hw : WF t) :
    ∀ (fuel r : Nat), r < t.heap.length → t.heap.length < fuel + r →
      ∃ x, t.traverse fuel r = .ok x := by
  intro fuel
  induction fuel with
  | zero => intro r h1 h2; omega
  | succ fuel ih =>
    intro r h1 h2
    have hn : t.heap[r]? = some t.heap[r] := List.getElem?_eq_getElem h1
    cases hm : t.lookup (t.heap[r]).id with
    | none => exact ⟨none, traverse_dead t fuel r _ hn hm⟩
    | some m =>
      have hall : ∀ c ∈ (t.heap[r]).children, ∃ x, t.traverse fuel c = .ok x := by
        intro c hc
        obtain ⟨h3, h4⟩ := hw.child r _ c hn hc
        exact ih c h4 (by omega)
      have hg : ∀ c ∈ (t.heap[r]).children, t.traverse fuel c = .ok
          (match t.traverse fuel c with
            | .ok x => x
            | .error _ => none) := by
        intro c hc
        obtain ⟨x, hx⟩ := hall c hc
        simp [hx]
      exact ⟨_, traverse_live t fuel r m _ _ hn hm (traverseChildren_ok _ _ _ hg)⟩

/-- On a well-formed state `printTree` returns. -/
theorem printTree_ok (t : Tree) (hw : WF t) : ∃ out, t.printTree = .ok out := by
  simp only [Tree.printTree]
  cases hr : t.root with
  | none => exact ⟨[], rfl⟩
  | some r =>
    obtain ⟨x, hx⟩ := traverse_ok t hw (t.heap.length + 1) r (hw.rootValid r hr) (by omega)
    cases x with
    | none => exact ⟨[], by simp only [hx]⟩
    | some rep => exact ⟨[rep], by simp only [hx]⟩

/-! ## The forest of child lists -/

theorem forest_new : Forest Tree.new := by
  refine ⟨?_, ?_⟩ <;> intros <;> simp_all [Tree.new]

theorem forest_of_frame {t t' : Tree} (h : Forest t) (f : Frame t t') : Forest t' := by
  refine ⟨?_, ?_⟩
  · intro a b na nb c ha hb
    rw [f.heap] at ha hb
    exact h.parent a b na nb c ha hb
  · intro r n hn
    rw [f.heap] at hn
    exact h.nodup r n hn

theorem setRoot_grafted (t : Tree) (id : String) (options : Options) :
    Grafted t (t.setRoot id options) none := by
  intro r n n1 hn h1
  have hlt : r < t.heap.length := by
    by_contra hc
    rw [List.getElem?_eq_none (by omega)] at hn
    cases hn
  simp only [Tree.setRoot] at h1
  rw [List.getElem?_append_left hlt, hn] at h1
  cases h1
  simp

theorem addNode_grafted (t t' : Tree) (parentId id : String) (options : Options)
    (p : Nat) (pn : TreeNode) (pf : Rect)
    (hp : t.lookup parentId = some p) (hn : t.heap[p]? = some pn)
    (hf : pn.fabricObject = some pf)
    (h : t.addNode parentId id options = .ok t') :
    Grafted t t' (some p) := by
  rw [addNode_eq t parentId id options p pn pf hp hn hf] at h
  simp only [Except.ok.injEq] at h
  subst h
  have hplt : p < t.heap.length := by
    by_contra hc
    rw [List.getElem?_eq_none (by omega)] at hn
    cases hn
  intro r n n1 hr h1
  have hlt : r < t.heap.length := by
    by_contra hc
    rw [List.getElem?_eq_none (by omega)] at hr
    cases hr
  have h2 : ((t.heap.set p { pn with children := pn.children ++ [t.heap.length] })
      ++ [childNode id options pf])[r]? = some n1 := h1
  rw [List.getElem?_append_left (by simpa using hlt)] at h2
  by_cases hrp : p = r
  · subst hrp
    rw [List.getElem?_set_self hplt] at h2
    rw [hn] at hr
    cases hr
    cases h2
    simp
  · rw [List.getElem?_set_ne hrp, hr] at h2
    cases h2
    have : ¬ (some p = some r) := fun hh => hrp (Option.some.inj hh)
    simp [this]

theorem forest_grows {t t' : Tree} {y : TreeNode} {q : Option Nat} (hF : Forest t)
    (hw : WF t) (g : Grows t t' y) (gr : Grafted t t' q) : Forest t' := by
  have hkids : ∀ (r : Nat) (n1 : TreeNode) (c : Nat), t'.heap[r]? = some n1 →
      c ∈ n1.children → ∃ n, t.heap[r]? = some n ∧
        ((c ∈ n.children ∧ c < t.heap.length) ∨ (c = t.heap.length ∧ q = some r)) := by
    intro r n1 c h1 hc
    rcases g.old_inv r n1 h1 with ⟨_, hy⟩ | ⟨_, n, h2, _⟩
    · subst hy
      rw [g.fresh] at hc
      cases hc
    · refine ⟨n, h2, ?_⟩
      have hk := gr r n n1 h2 h1
      by_cases hq : q = some r
      · rw [if_pos hq] at hk
        rw [hk] at hc
        rcases List.mem_append.mp hc with h3 | h3
        · exact Or.inl ⟨h3, (hw.child r n c h2 h3).2⟩
        · exact Or.inr ⟨List.mem_singleton.mp h3, hq⟩
      · rw [if_neg hq] at hk
        rw [hk] at hc
        exact Or.inl ⟨hc, (hw.child r n c h2 hc).2⟩
  refine ⟨?_, ?_⟩
  · intro a b na nb c ha hb hca hcb
    obtain ⟨n0a, h0a, hA⟩ := hkids a na c ha hca
    obtain ⟨n0b, h0b, hB⟩ := hkids b nb c hb hcb
    rcases hA with ⟨h1, h2⟩ | ⟨h1, h2⟩
    · rcases hB with ⟨h3, _⟩ | ⟨h3, _⟩
      · exact hF.parent a b n0a n0b c h0a h0b h1 h3
      · omega
    · rcases hB with ⟨_, h4⟩ | ⟨_, h4⟩
      · omega
      · rw [h2] at h4
        exact Option.some.inj h4
  · intro r n1 h1
    rcases g.old_inv r n1 h1 with ⟨_, hy⟩ | ⟨_, n, h2, _⟩
    · subst hy
      rw [g.fresh]
      exact List.nodup_nil
    · have hk := gr r n n1 h2 h1
      by_cases hq : q = some r
      · rw [if_pos hq] at hk
        rw [hk]
        refine List.nodup_append.mpr ⟨hF.nodup r n h2, List.nodup_singleton _, ?_⟩
        intro c hc hc2
        rw [List.mem_singleton] at hc2
        have := (hw.child r n c h2 hc).2
        omega
      · rw [if_neg hq] at hk
        rw [hk]
        exact hF.nodup r n h2

/-- Every state reached from a new tree has a forest of child lists. -/
theorem step_forest (t t' : Tree) (op : Op) (hw : WF t) (hF : Forest t)
    (h : t.step op = .ok t') : Forest t' := by
  cases op with
  | setRoot id options =>
    simp only [Tree.step, Except.ok.injEq] at h
    subst h
    exact forest_grows hF hw (setRoot_grows t id options) (setRoot_grafted t id options)
  | addNode parentId id options =>
    cases hp : t.lookup parentId with
    | none =>
      simp only [Tree.step, Tree.addNode, hp, Except.ok.injEq] at h
      subst h
      exact forest_of_frame hF ⟨rfl, rfl, fun _ => Or.inr rfl⟩
    | some p =>
      obtain ⟨pn, hn, _⟩ := hw.index parentId p hp
      obtain ⟨pf, hf⟩ := hw.shape p pn hn
      exact forest_grows hF hw (addNode_grows t t' parentId id options p pn pf hp hn hf h)
        (addNode_grafted t t' parentId id options p pn pf hp hn hf h)
  | deleteNode id =>
    exact forest_of_frame hF (deleteNodeFuel_frame _ _ _ _ h).1

theorem run_forest (ops : List Op) :
    ∀ (t t' : Tree), WF t → Forest t → t.run ops = .ok t' → Forest t' := by
  induction ops with
  | nil =>
    intro t t' _ hF h
    simp only [Tree.run, Except.ok.injEq] at h
    subst h
    exact hF
  | cons op ops ih =>
    intro t t' hw hF h
    obtain ⟨t1, h1, hw1⟩ := step_ok t op hw
    simp only [Tree.run, h1] at h
    exact ih t1 t' hw1 (step_forest t t1 op hw hF h1) h

/-! ## Serialisation of a tree built by `setRoot` and `addNode` -/

theorem traverseChildren_snoc (trav : Nat → Except Err (Option NodeRep)) (cs : List Nat)
    (c : Nat) (reps : List NodeRep) (rep : NodeRep)
    (h : traverseChildren trav cs = .ok reps) (hc : trav c = .ok (some rep)) :
    traverseChildren trav (cs ++ [c]) = .ok (reps ++ [rep]) := by
  obtain ⟨g, hg, hreps⟩ := traverseChildren_inv trav cs reps h
  have hall : ∀ x ∈ cs ++ [c], trav x = .ok
      (match trav x with
        | .ok v => v
        | .error _ => none) := by
    intro x hx
    rcases List.mem_append.mp hx with h1 | h1
    · simp [hg x h1]
    · rw [List.mem_singleton] at h1
      subst h1
      simp [hc]
  rw [traverseChildren_ok trav _ (cs ++ [c]) hall, List.filterMap_append]
  have e1 : cs.filterMap (fun x => match trav x with
      | .ok v => v
      | .error _ => none) = reps := by
    rw [hreps]
    apply List.filterMap_congr
    intro x hx
    simp [hg x hx]
  rw [e1]
  simp [List.filterMap_cons, hc]

theorem traverse_congr (t t' : Tree) (hh : t'.heap = t.heap) (hl : ∀ k, t'.lookup k = t.lookup k) :
    ∀ (fuel r : Nat), t'.traverse fuel r = t.traverse fuel r := by
  intro fuel
  induction fuel with
  | zero => intro r; rfl
  | succ fuel ih =>
    intro r
    have hf : t'.traverse fuel = t.traverse fuel := funext ih
    simp only [Tree.traverse, hh, hl, hf]

/-- A record printed by a tree has no record with an id that is not in the
index, so adding under such an id changes nothing. -/
theorem add_absent_parent (t : Tree) (parentId id : String) (options : Options)
    (hp : t.lookup parentId = none) :
    ∀ (fuel r : Nat) (rep : NodeRep), t.traverse fuel r = .ok (some rep) →
      rep.add parentId id options = rep := by
  intro fuel
  induction fuel with
  | zero => intro r rep h; simp [Tree.traverse] at h
  | succ fuel ih =>
    intro r rep h
    obtain ⟨n, m, reps, hn, hm, hreps, hrep⟩ := traverse_some t fuel r rep h
    obtain ⟨g, hg, hreps2⟩ := traverseChildren_inv _ _ _ hreps
    subst hrep
    have hne : n.id ≠ parentId := by
      intro heq
      rw [heq, hp] at hm
      cases hm
    have hmap : reps.map (NodeRep.add parentId id options) = reps := by
      rw [hreps2]
      conv_rhs => rw [← List.map_id (List.filterMap g n.children)]
      apply List.map_congr_left
      intro x hx
      obtain ⟨c, hc, hgc⟩ := List.mem_filterMap.mp hx
      have := hg c hc
      rw [hgc] at this
      simpa using ih c x this
    simp [NodeRep.add, addList_eq_map, hmap, hne]

theorem traverse_addNode {t t' : Tree} {rid : String} {ids : List String}
    (hB : Built t rid ids) (parentId id : String) (options : Options) (p : Nat) (pf : Rect)
    (hp : t.lookup parentId = some p)
    (g : Grows t t' (childNode id options pf)) (gr : Grafted t t' (some p)) :
    ∀ (fuel r : Nat) (rep : NodeRep), t.traverse fuel r = .ok (some rep) →
      t'.traverse (fuel + 1) r = .ok (some (rep.add parentId id options)) := by
  intro fuel
  induction fuel with
  | zero => intro r rep h; simp [Tree.traverse] at h
  | succ fuel ih =>
    intro r rep h
    obtain ⟨n, m, reps, hn, hm, hreps, hrep⟩ := traverse_some t fuel r rep h
    obtain ⟨g0, hg0, hreps2⟩ := traverseChildren_inv _ _ _ hreps
    subst hrep
    obtain ⟨n1, h1, hid, hopt, _⟩ := g.old r n hn
    have hk := gr r n n1 hn h1
    have hlive : ∃ m', t'.lookup n1.id = some m' := by
      rw [g.lookup, hid]
      by_cases hy : n.id = (childNode id options pf).id
      · exact ⟨t.heap.length, by simp [hy]⟩
      · exact ⟨m, by simp [hy, hm]⟩
    obtain ⟨m', hm'⟩ := hlive
    have hold : ∀ c ∈ n.children,
        t'.traverse (fuel + 1) c = .ok ((g0 c).map (NodeRep.add parentId id options)) := by
      intro c hc
      have hc0 := hg0 c hc
      cases hgc : g0 c with
      | none =>
        rw [hgc] at hc0
        obtain ⟨nc, hnc, hdead⟩ := traverse_none t fuel c hc0
        rw [hB.present c nc hnc] at hdead
        cases hdead
      | some rc =>
        rw [hgc] at hc0
        exact ih c rc hc0
    have hkids : traverseChildren (t'.traverse (fuel + 1)) n.children =
        .ok (reps.map (NodeRep.add parentId id options)) := by
      rw [traverseChildren_ok _ _ _ hold, hreps2, List.map_filterMap]
    obtain ⟨np, hnp, hpid⟩ := hB.wf.index parentId p hp
    by_cases hq : p = r
    · subst hq
      rw [hn] at hnp
      cases hnp
      rw [if_pos rfl] at hk
      have hleaf : t'.traverse (fuel + 1) t.heap.length =
          .ok (some (NodeRep.mk id options [])) := by
        have hy : t'.lookup (childNode id options pf).id = some t.heap.length := by
          rw [g.lookup]
          simp
        exact traverse_live t' fuel t.heap.length t.heap.length (childNode id options pf) []
          g.last hy (by rw [g.fresh]; rfl)
      have hall := traverseChildren_snoc _ _ _ _ _ hkids hleaf
      rw [← hk] at hall
      have := traverse_live t' (fuel + 1) p m' n1 _ h1 hm' hall
      rw [this, hid, hopt]
      simp [NodeRep.add, addList_eq_map, hpid]
    · have hne : ¬ (some p = some r) := fun hh => hq (Option.some.inj hh)
      rw [if_neg hne] at hk
      rw [← hk] at hkids
      have := traverse_live t' (fuel + 1) r m' n1 _ h1 hm' hkids
      rw [this, hid, hopt]
      have hnid : n.id ≠ parentId := by
        intro heq
        have := hB.present r n hn
        rw [heq, hp] at this
        exact hq (Option.some.inj this)
      simp [NodeRep.add, addList_eq_map, hnid]

theorem printTree_root (t : Tree) (rep : NodeRep) (hroot : t.root = some 0) :
    t.printTree = .ok [rep] ↔ t.traverse (t.heap.length + 1) 0 = .ok (some rep) := by
  simp only [Tree.printTree, hroot]
  constructor
  · intro h
    split at h
    · cases h
    · cases h
    · rename_i r hr
      simp only [Except.ok.injEq, List.cons.injEq, and_true] at h
      rw [hr, h]
  · intro h
    simp only [h]

theorem printTree_addNode {t t' : Tree} {rid : String} {ids : List String}
    (hB : Built t rid ids) (parentId id : String) (options : Options) (rep : NodeRep)
    (hid : id ∉ ids) (ht : t.addNode parentId id options = .ok t')
    (hrep : t.printTree = .ok [rep]) :
    t'.printTree = .ok [rep.add parentId id options] := by
  have hB' := hB.addNode parentId id options hid ht
  rw [printTree_root t rep hB.root] at hrep
  rw [printTree_root t' _ hB'.root]
  cases hp : t.lookup parentId with
  | none =>
    simp only [Tree.addNode, hp, Except.ok.injEq] at ht
    subst ht
    rw [add_absent_parent t parentId id options hp _ _ rep hrep]
    exact Eq.trans (traverse_congr t _ (by rfl) (fun _ => by rfl) _ _) hrep
  | some p =>
    obtain ⟨pn, hn, _⟩ := hB.wf.index parentId p hp
    obtain ⟨pf, hf⟩ := hB.wf.shape p pn hn
    have g := addNode_grows t t' parentId id options p pn pf hp hn hf ht
    have gr := addNode_grafted t t' parentId id options p pn pf hp hn hf ht
    rw [g.len]
    exact traverse_addNode hB parentId id options p pf hp g gr _ 0 rep hrep

theorem printTree_run_adds (adds : List (String × String × Options)) :
    ∀ (t : Tree) (rid : String) (ids : List String) (rep : NodeRep), Built t rid ids →
      t.printTree = .ok [rep] →
      (∀ a ∈ adds, a.2.1 ∉ ids) → (adds.map (fun a => a.2.1)).Nodup →
      ∃ t', t.run (addOps adds) = .ok t' ∧
        t'.printTree = .ok [adds.foldl (fun rep a => rep.add a.1 a.2.1 a.2.2) rep] := by
  induction adds with
  | nil =>
    intro t rid ids rep _ hrep _ _
    exact ⟨t, rfl, hrep⟩
  | cons a adds ih =>
    intro t rid ids rep h hrep hfresh hnd
    obtain ⟨t1, h1, _⟩ := step_ok t (Op.addNode a.1 a.2.1 a.2.2) h.wf
    have hfr := hfresh a (List.mem_cons_self _ _)
    have hb := h.addNode a.1 a.2.1 a.2.2 hfr h1
    have hrep1 := printTree_addNode h a.1 a.2.1 a.2.2 rep hfr h1 hrep
    rw [List.map_cons, List.nodup_cons] at hnd
    obtain ⟨t2, h2, hp2⟩ := ih t1 rid (a.2.1 :: ids) _ hb hrep1 (by
      intro b hbm hmem
      rcases List.mem_cons.mp hmem with h3 | h3
      · apply hnd.1
        rw [← h3]
        exact List.mem_map_of_mem (fun a => a.2.1) hbm
      · exact hfresh b (List.mem_cons_of_mem _ hbm) h3) hnd.2
    refine ⟨t2, ?_, ?_⟩
    · simp only [addOps, List.map_cons, Tree.run]
      rw [show t.step (Op.addNode a.1 a.2.1 a.2.2) = .ok t1 from h1]
      exact h2
    · simpa only [List.foldl_cons] using hp2

/-- C11: for every tree built by one `setRoot` and `addNode` calls with pairwise
distinct ids (all different from the root id) and no deletion, the build
returns and `printTree` logs exactly one record, the one of the root, which is
the nested record `specBuild` describes: the root record with its id and
options, and under each record the records of the children added under it, in
the order of the calls. -/
theorem printTree_of_built_tree (rootId : String) (rootOptions : Options)
    (adds : List (String × String × Options))
    (hnd : (rootId :: adds.map (fun a => a.2.1)).Nodup) :
    ∃ t, Tree.build rootId rootOptions adds = .ok t ∧
      t.printTree = .ok [specBuild rootId rootOptions adds] := by
  rw [List.nodup_cons] at hnd
  have h0 : (Tree.new.setRoot rootId rootOptions).printTree =
      .ok [NodeRep.mk rootId rootOptions []] := by
    simp [Tree.printTree, Tree.setRoot, Tree.new, Tree.traverse, Tree.lookup, setKey,
      List.lookup, TreeNode.new, TreeNode.createFabricObject, traverseChildren]
  exact printTree_run_adds adds _ rootId [rootId] _ (Built.setRoot rootId rootOptions) h0 (by
    intro a ha hmem
    rw [List.mem_singleton] at hmem
    apply hnd.1
    rw [← hmem]
    exact List.mem_map_of_mem (fun a => a.2.1) ha) hnd.2

theorem printTree_of_built_tree_witness :
    ∃ t, Tree.build "root" demoRootOptions demoAdds = .ok t ∧
      t.printTree = .ok [specBuild "root" demoRootOptions demoAdds] :=
  printTree_of_built_tree "root" demoRootOptions demoAdds (by decide)

end SceneTree

namespace SceneTree

/-! ## Serialisation after a deletion -/

theorem removeList_eq_filterMap (id : String) (cs : List NodeRep) :
    NodeRep.removeList id cs =
      cs.filterMap (fun c => if c.id = id then none else some (c.remove id)) := by
  induction cs with
  | nil => simp [NodeRep.removeList]
  | cons c cs ih =>
    by_cases hc : c.id = id
    · simp [NodeRep.removeList, List.filterMap_cons, hc, ih]
    · simp [NodeRep.removeList, List.filterMap_cons, hc, ih]

theorem build_run (rootId : String) (rootOptions : Options)
    (adds : List (String × String × Options)) :
    Tree.build rootId rootOptions adds =
      Tree.new.run (Op.setRoot rootId rootOptions :: addOps adds) := by
  simp [Tree.build, Tree.run, Tree.step]

theorem Built.root_outside {t : Tree} {rid : String} {ids : List String} (hB : Built t rid ids)
    (id : String) (r : Nat) (hl : t.lookup id = some r) (hne : id ≠ rid) :
    ¬ SubtreeId t.heap r rid := by
  rintro ⟨d, nd, hreach, hd, hid⟩
  have h0 := hB.present d nd hd
  rw [hid, hB.rootKey] at h0
  have hd0 : d = 0 := (Option.some.inj h0).symm
  subst hd0
  have key : ∀ a b, Reach t.heap a b → a ≤ b := by
    intro a b hab
    induction hab with
    | refl => exact le_refl _
    | tail _ hch ih =>
      obtain ⟨n1, hn1, hc1⟩ := hch
      have := (hB.wf.child _ n1 _ hn1 hc1).1
      omega
  have hr0 : r = 0 := by
    have := key r 0 hreach
    omega
  subst hr0
  obtain ⟨nr, hnr, hnid⟩ := hB.wf.index id 0 hl
  rw [hd] at hnr
  cases hnr
  exact hne (hnid.symm.trans hid)

/-- In a forest with distinct ids, a child that a deletion unbound while its
parent stayed bound is the deleted node itself. -/
theorem dead_child_is_target {t t' : Tree} (hD : Distinct t) (hF : Forest t) (m : Nat)
    (hx : ∀ k, t'.lookup k = none ↔ (t.lookup k = none ∨ SubtreeId t.heap m k))
    (r c : Nat) (n nc : TreeNode) (hn : t.heap[r]? = some n) (hc : c ∈ n.children)
    (hnc : t.heap[c]? = some nc) (hlive : t'.lookup n.id ≠ none)
    (hbound : t.lookup nc.id ≠ none) (hdead : t'.lookup nc.id = none) : c = m := by
  rcases (hx nc.id).mp hdead with h1 | ⟨d, nd, hreach, hd, hid⟩
  · exact absurd h1 hbound
  · have hdc : d = c := hD.inj d c nd nc hd hnc hid
    subst hdc
    rcases Relation.ReflTransGen.cases_tail hreach with h2 | ⟨y, hy, ny, hny, hcy⟩
    · exact h2
    · have hyr : y = r := hF.parent y r ny n d hny hn hcy hc
      subst hyr
      exact absurd ((hx n.id).mpr (Or.inr ⟨y, n, hy, hn, rfl⟩)) hlive

theorem traverse_deleteNode {t t' : Tree} (hD : Distinct t) (hF : Forest t) (hA : AllBound t)
    (hh : t'.heap = t.heap) (m : Nat) (nm : TreeNode) (hm : t.heap[m]? = some nm)
    (hx : ∀ k, t'.lookup k = none ↔ (t.lookup k = none ∨ SubtreeId t.heap m k)) :
    ∀ (fuel r : Nat) (rep : NodeRep) (n : TreeNode), t.traverse fuel r = .ok (some rep) →
      t.heap[r]? = some n → t'.lookup n.id ≠ none →
      t'.traverse fuel r = .ok (some (rep.remove nm.id)) := by
  have htarget : t'.lookup nm.id = none :=
    (hx nm.id).mpr (Or.inr ⟨m, nm, Relation.ReflTransGen.refl, hm, rfl⟩)
  intro fuel
  induction fuel with
  | zero => intro r rep n h; simp [Tree.traverse] at h
  | succ fuel ih =>
    intro r rep n h hn hlive
    obtain ⟨n', _, reps, hn', _, hreps, hrep⟩ := traverse_some t fuel r rep h
    rw [hn] at hn'
    cases hn'
    obtain ⟨g0, hg0, hreps2⟩ := traverseChildren_inv _ _ _ hreps
    subst hrep
    have hkid : ∀ c ∈ n.children, t'.traverse fuel c = .ok
        ((g0 c).bind (fun rc => if rc.id = nm.id then none else some (rc.remove nm.id))) := by
      intro c hc
      have hc0 := hg0 c hc
      cases hgc : g0 c with
      | none =>
        rw [hgc] at hc0
        obtain ⟨nc, hnc, hdead⟩ := traverse_none t fuel c hc0
        exact absurd hdead (hA c nc hnc)
      | some rc =>
        rw [hgc] at hc0
        cases fuel with
        | zero => simp [Tree.traverse] at hc0
        | succ fuel =>
          obtain ⟨nc, _, _, hnc, _, _, _⟩ := traverse_some t fuel c rc hc0
          have hrcid := (traverse_id t (fuel + 1) c rc nc hc0 hnc).1
          cases hdead : t'.lookup nc.id with
          | none =>
            have hcm : c = m :=
              dead_child_is_target hD hF m hx r c n nc hn hc hnc hlive (hA c nc hnc) hdead
            subst hcm
            rw [hm] at hnc
            cases hnc
            have hnc' : t'.heap[c]? = some nm := by rw [hh]; exact hm
            rw [traverse_dead t' fuel c nm hnc' hdead]
            simp [hrcid]
          | some v =>
            have hne : rc.id ≠ nm.id := by
              intro heq
              rw [hrcid] at heq
              rw [heq, htarget] at hdead
              cases hdead
            rw [ih c rc nc hc0 hnc (by rw [hdead]; simp)]
            simp [hne]
    have hlive' : ∃ v, t'.lookup n.id = some v := by
      cases hv : t'.lookup n.id with
      | none => exact absurd hv hlive
      | some v => exact ⟨v, rfl⟩
    obtain ⟨v, hv⟩ := hlive'
    have hn2 : t'.heap[r]? = some n := by rw [hh]; exact hn
    rw [traverse_live t' fuel r v n _ hn2 hv (traverseChildren_ok _ _ _ hkid)]
    simp only [NodeRep.remove, removeList_eq_filterMap, hreps2, List.filterMap_filterMap]

/-- What holds of C20: for every tree built by one `setRoot` and `addNode` calls
with pairwise distinct ids, none of the ids in play being a name inherited
from `Object.prototype`, and every non-root node `id` of it, what `printTree`
logs after `deleteNode(id)` is what it logged before with the record of `id`
(and all that is nested in it) taken out of the children list that held it;
every other record, and the order of the records, is the same. -/
theorem printTree_after_deleteNode (rootId : String) (rootOptions : Options)
    (adds : List (String × String × Options)) (t : Tree) (id : String) (r : Nat)
    (hnd : (rootId :: adds.map (fun a => a.2.1)).Nodup)
    (hb : Tree.build rootId rootOptions adds = .ok t)
    (hnonroot : id ≠ rootId) (hl : t.lookup id = some r)
    (_hplain : ∀ k ∈ rootId :: opIds (addOps adds), inheritedKey k = false) :
    ∃ rep t', t.printTree = .ok [rep] ∧ t.deleteNode id = .ok t' ∧
      t'.printTree = .ok [rep.remove id] := by
  obtain ⟨t0, ids, hb0, hB⟩ := build_built rootId rootOptions adds hnd
  rw [hb] at hb0
  cases hb0
  have hF : Forest t := by
    rw [build_run] at hb
    exact run_forest _ Tree.new t WF.new forest_new hb
  have hA : AllBound t := by
    intro a na ha
    rw [hB.present a na ha]
    simp
  obtain ⟨n0, hn0, hn0id⟩ := hB.wf.index rootId 0 hB.rootKey
  obtain ⟨nm, hnm, hnmid⟩ := hB.wf.index id r hl
  obtain ⟨x, hx⟩ := traverse_ok t hB.wf (t.heap.length + 1) 0 hB.nonempty (by omega)
  have hsome : ∃ rep, x = some rep := by
    cases x with
    | none =>
      obtain ⟨n, hn, hdead⟩ := traverse_none t _ 0 hx
      exact absurd hdead (hA 0 n hn)
    | some rep => exact ⟨rep, rfl⟩
  obtain ⟨rep, hrep⟩ := hsome
  subst hrep
  obtain ⟨t', ht'⟩ := deleteNode_ok t id hB.wf
  obtain ⟨hf, _, hex, _⟩ := deleteNodeFuel_exact _ _ _ _ ht' hB.distinct
  have hlive : t'.lookup n0.id ≠ none := by
    intro hdead
    rw [hn0id] at hdead
    rcases (hex r hl rootId).mp hdead with h1 | h1
    · rw [hB.rootKey] at h1
      cases h1
    · exact hB.root_outside id r hl hnonroot h1
  have key := traverse_deleteNode hB.distinct hF hA hf.heap r nm hnm (hex r hl)
    (t.heap.length + 1) 0 rep n0 hx hn0 hlive
  refine ⟨rep, t', (printTree_root t rep hB.root).mpr hx, ht', ?_⟩
  rw [printTree_root t' _ (hf.root.trans hB.root), hf.heap, ← hnmid]
  exact key

/-- C20, evaluated where it fails: after `setRoot('root')`,
`addNode('root', 'constructor')` and `deleteNode('constructor')` the id
`constructor` is no key of the index, but the deleted node is still in the
child list of the root and the read `this.nodes['constructor']` is true (the
inherited function), so the check `if (!this.nodes[node.id])` of `traverse`
does not skip it and `printTree` logs the record of the deleted node as
before. -/
theorem deleted_node_with_inherited_id_is_printed :
    ∃ t t', Tree.build "root" {} [("root", "constructor", {})] = .ok t ∧
      t.deleteNode "constructor" = .ok t' ∧
      t'.lookup "constructor" = none ∧ t'.truthy "constructor" = true ∧
      (t'.heap[0]?).map (fun n => n.children) = some [1] ∧
      (t'.heap[1]?).map (fun n => n.id) = some "constructor" :=
  ⟨_, _, rfl, rfl, rfl, rfl, rfl, rfl⟩

/-! ## Paths in the forest -/

theorem reach_le {t : Tree} (hw : WF t) {a b : Nat} (h : Reach t.heap a b) : a ≤ b := by
  induction h with
  | refl => exact le_refl _
  | tail _ hch ih =>
    obtain ⟨n1, hn1, hc1⟩ := hch
    have := (hw.child _ n1 _ hn1 hc1).1
    omega

theorem reach_comparable {t : Tree} (hF : Forest t) {a b x : Nat}
    (ha : Reach t.heap a x) (hb : Reach t.heap b x) :
    Reach t.heap a b ∨ Reach t.heap b a := by
  induction ha generalizing b with
  | refl => exact Or.inr hb
  | tail hay hyx ih =>
    rename_i y x
    rcases Relation.ReflTransGen.cases_tail hb with h1 | ⟨y', hby', hy'x⟩
    · subst h1
      exact Or.inl (Relation.ReflTransGen.tail hay hyx)
    · obtain ⟨ny, hny, hcy⟩ := hyx
      obtain ⟨ny', hny', hcy'⟩ := hy'x
      have hyy : y = y' := hF.parent y y' ny ny' x hny hny' hcy hcy'
      subst hyy
      exact ih hby'

theorem siblings_apart {t : Tree} (hw : WF t) (hF : Forest t) (r : Nat) (n : TreeNode)
    (hn : t.heap[r]? = some n) (c c' : Nat) (hc : c ∈ n.children) (hc' : c' ∈ n.children)
    (h : Reach t.heap c c') : c = c' := by
  rcases Relation.ReflTransGen.cases_tail h with h1 | ⟨y, hy, ny, hny, hcy⟩
  · exact h1.symm
  · have hyr : y = r := hF.parent y r ny n c' hny hn hcy hc'
    subst hyr
    have h1 := reach_le hw hy
    have h2 := (hw.child y n c hn hc).1
    omega

/-- Two children of one node that both reach some object are the same child. -/
theorem subtrees_disjoint {t : Tree} (hw : WF t) (hF : Forest t) (r : Nat) (n : TreeNode)
    (hn : t.heap[r]? = some n) (c c' x : Nat) (hc : c ∈ n.children) (hc' : c' ∈ n.children)
    (h1 : Reach t.heap c x) (h2 : Reach t.heap c' x) : c = c' := by
  rcases reach_comparable hF h1 h2 with h | h
  · exact siblings_apart hw hF r n hn c c' hc hc' h
  · exact (siblings_apart hw hF r n hn c' c hc' hc h).symm

/-! ## The records of a serialisation -/

theorem entries_mk (i : String) (o : Options) (cs : List NodeRep) :
    (NodeRep.mk i o cs).entries = (i, o) :: cs.flatMap NodeRep.entries := by
  simp [NodeRep.entries, entriesList_eq]

/-- Every record printed for `r` is the record of a bound node reachable from
`r`. -/
theorem traverse_entries_sound (t : Tree) :
    ∀ (fuel r : Nat) (rep : NodeRep), t.traverse fuel r = .ok (some rep) →
      ∀ e ∈ rep.entries, ∃ d n, Reach t.heap r d ∧ t.heap[d]? = some n ∧ n.id = e.1 ∧
        n.options = e.2 ∧ t.lookup e.1 ≠ none := by
  intro fuel
  induction fuel with
  | zero => intro r rep h; simp [Tree.traverse] at h
  | succ fuel ih =>
    intro r rep h e he
    obtain ⟨n, m, reps, hn, hm, hreps, hrep⟩ := traverse_some t fuel r rep h
    obtain ⟨g0, hg0, hreps2⟩ := traverseChildren_inv _ _ _ hreps
    subst hrep
    rw [entries_mk] at he
    rcases List.mem_cons.mp he with h1 | h1
    · subst h1
      exact ⟨r, n, Relation.ReflTransGen.refl, hn, rfl, rfl, by simp [hm]⟩
    · obtain ⟨rc, hrc, hec⟩ := List.mem_flatMap.mp h1
      rw [hreps2] at hrc
      obtain ⟨c, hc, hgc⟩ := List.mem_filterMap.mp hrc
      have hc0 := hg0 c hc
      rw [hgc] at hc0
      obtain ⟨d, nd, hreach, hrest⟩ := ih c rc hc0 e hec
      exact ⟨d, nd, Relation.ReflTransGen.head ⟨n, hn, hc⟩ hreach, hrest⟩

/-- Every bound node reachable from `r` has its record printed for `r`. -/
theorem traverse_entries_complete (t : Tree) (hD : Distinct t) :
    ∀ (fuel r : Nat) (rep : NodeRep), t.traverse fuel r = .ok (some rep) →
      ∀ (d : Nat) (nd : TreeNode), Reach t.heap r d → t.heap[d]? = some nd →
        t.lookup nd.id ≠ none → nd.id ∈ rep.entries.map (fun e => e.1) := by
  intro fuel
  induction fuel with
  | zero => intro r rep h; simp [Tree.traverse] at h
  | succ fuel ih =>
    intro r rep h d nd hreach hd hlive
    obtain ⟨n, m, reps, hn, hm, hreps, hrep⟩ := traverse_some t fuel r rep h
    obtain ⟨g0, hg0, hreps2⟩ := traverseChildren_inv _ _ _ hreps
    subst hrep
    rw [entries_mk, List.map_cons]
    rcases reach_head hreach with h1 | ⟨c, ⟨n', hn', hc⟩, hcd⟩
    · subst h1
      rw [hn] at hd
      cases hd
      exact List.mem_cons_self _ _
    · rw [hn] at hn'
      cases hn'
      have hc0 := hg0 c hc
      cases hgc : g0 c with
      | none =>
        rw [hgc] at hc0
        obtain ⟨nc, hnc, hdead⟩ := traverse_none t fuel c hc0
        exact absurd (hD.below hnc hdead nd.id ⟨d, nd, hcd, hd, rfl⟩) hlive
      | some rc =>
        rw [hgc] at hc0
        have hmem := ih c rc hc0 d nd hcd hd hlive
        apply List.mem_cons_of_mem
        obtain ⟨e, he, heq⟩ := List.mem_map.mp hmem
        refine List.mem_map.mpr ⟨e, List.mem_flatMap.mpr ⟨rc, ?_, he⟩, heq⟩
        rw [hreps2]
        exact List.mem_filterMap.mpr ⟨c, hc, hgc⟩

theorem traverseChildren_nodup (trav : Nat → Except Err (Option NodeRep))
    (P : Nat → String → Prop) :
    ∀ (cs : List Nat) (reps : List NodeRep), cs.Nodup →
      (∀ c ∈ cs, ∀ rc, trav c = .ok (some rc) →
        (rc.entries.map (fun e => e.1)).Nodup ∧ ∀ k ∈ rc.entries.map (fun e => e.1), P c k) →
      (∀ c c' k, c ∈ cs → c' ∈ cs → P c k → P c' k → c = c') →
      traverseChildren trav cs = .ok reps →
      ((reps.flatMap NodeRep.entries).map (fun e => e.1)).Nodup ∧
      ∀ k ∈ (reps.flatMap NodeRep.entries).map (fun e => e.1), ∃ c ∈ cs, P c k := by
  intro cs
  induction cs with
  | nil =>
    intro reps _ _ _ h
    simp only [traverseChildren, Except.ok.injEq] at h
    subst h
    simp
  | cons c cs ih =>
    intro reps hnd hall hdisj h
    simp only [traverseChildren] at h
    split at h
    · cases h
    · rename_i x hx
      split at h
      · cases h
      · rename_i rest hrest
        rw [List.nodup_cons] at hnd
        obtain ⟨ih1, ih2⟩ := ih rest hnd.2
          (fun c' hc' => hall c' (List.mem_cons_of_mem _ hc'))
          (fun a b k ha hb => hdisj a b k (List.mem_cons_of_mem _ ha) (List.mem_cons_of_mem _ hb))
          hrest
        cases x with
        | none =>
          simp only [Except.ok.injEq] at h
          subst h
          exact ⟨ih1, fun k hk => by
            obtain ⟨c', hc', hp⟩ := ih2 k hk
            exact ⟨c', List.mem_cons_of_mem _ hc', hp⟩⟩
        | some rc =>
          simp only [Except.ok.injEq] at h
          subst h
          obtain ⟨h1, h2⟩ := hall c (List.mem_cons_self _ _) rc hx
          simp only [List.flatMap_cons, List.map_append]
          refine ⟨List.nodup_append.mpr ⟨h1, ih1, ?_⟩, ?_⟩
          · intro k hk1 hk2
            obtain ⟨c', hc', hp⟩ := ih2 k hk2
            have := hdisj c c' k (List.mem_cons_self _ _) (List.mem_cons_of_mem _ hc')
              (h2 k hk1) hp
            subst this
            exact hnd.1 hc'
          · intro k hk
            rcases List.mem_append.mp hk with h3 | h3
            · exact ⟨c, List.mem_cons_self _ _, h2 k h3⟩
            · obtain ⟨c', hc', hp⟩ := ih2 k h3
              exact ⟨c', List.mem_cons_of_mem _ hc', hp⟩

/-- No id occurs twice among the records printed for `r`. -/
theorem traverse_entries_nodup (t : Tree) (hw : WF t) (hF : Forest t) (hD : Distinct t) :
    ∀ (fuel r : Nat) (rep : NodeRep), t.traverse fuel r = .ok (some rep) →
      (rep.entries.map (fun e => e.1)).Nodup := by
  intro fuel
  induction fuel with
  | zero => intro r rep h; simp [Tree.traverse] at h
  | succ fuel ih =>
    intro r rep h
    obtain ⟨n, m, reps, hn, hm, hreps, hrep⟩ := traverse_some t fuel r rep h
    subst hrep
    have hsub : ∀ c ∈ n.children, ∀ rc, t.traverse fuel c = .ok (some rc) →
        (rc.entries.map (fun e => e.1)).Nodup ∧
        ∀ k ∈ rc.entries.map (fun e => e.1), SubtreeId t.heap c k := by
      intro c _ rc hrc
      refine ⟨ih c rc hrc, fun k hk => ?_⟩
      obtain ⟨e, he, hek⟩ := List.mem_map.mp hk
      obtain ⟨d, nd, hreach, hd, hid, _⟩ := traverse_entries_sound t fuel c rc hrc e he
      exact ⟨d, nd, hreach, hd, hid.trans hek⟩
    have hdisj : ∀ c c' k, c ∈ n.children → c' ∈ n.children → SubtreeId t.heap c k →
        SubtreeId t.heap c' k → c = c' := by
      rintro c c' k hc hc' ⟨d, nd, h1, h2, h3⟩ ⟨d', nd', h1', h2', h3'⟩
      have hdd : d = d' := hD.inj d d' nd nd' h2 h2' (h3.trans h3'.symm)
      subst hdd
      exact subtrees_disjoint hw hF r n hn c c' d hc hc' h1 h1'
    obtain ⟨k1, k2⟩ := traverseChildren_nodup _ (SubtreeId t.heap) n.children reps
      (hF.nodup r n hn) hsub hdisj hreps
    rw [entries_mk, List.map_cons, List.nodup_cons]
    refine ⟨?_, k1⟩
    intro hmem
    obtain ⟨c, hc, d, nd, hreach, hd, hid⟩ := k2 _ hmem
    have hdr : d = r := hD.inj d r nd n hd hn hid
    subst hdr
    have h1 := reach_le hw hreach
    have h2 := (hw.child d n c hn hc).1
    omega

/-! ## Trees in which no id is used twice -/

theorem addIds_cons (op : Op) (ops : List Op) : addIds (op :: ops) = addIds [op] ++ addIds ops := by
  cases op <;> simp [addIds]

theorem Tidy.same {t t' : Tree} {used used' : List String} (h : Tidy t used)
    (hh : t'.heap = t.heap) (hr : t'.root = t.root) (hl : ∀ k, t'.lookup k = t.lookup k)
    (hsub : ∀ k, k ∈ used → k ∈ used') : Tidy t' used' := by
  have hf : Frame t t' := ⟨hh, hr, fun k => Or.inr (hl k)⟩
  refine ⟨⟨h.rooted.wf.of_frame hf, hr.trans h.rooted.root, ?_⟩, forest_of_frame h.forest hf,
    h.distinct.congr hh hl, ?_⟩
  · intro k r hk
    rw [hh]
    rw [hl] at hk
    exact h.rooted.reach k r hk
  · intro r n hn
    rw [hh] at hn
    exact hsub _ (h.ids r n hn)

theorem tidy_step {t t' : Tree} {used : List String} (h : Tidy t used) (op : Op)
    (hop : op.isSetRoot = false) (hfresh : ∀ x ∈ addIds [op], x ∉ used)
    (ht : t.step op = .ok t') : Tidy t' (addIds [op] ++ used) := by
  have hR := rooted_step h.rooted op hop ht
  have hFo := step_forest t t' op h.rooted.wf h.forest ht
  cases op with
  | setRoot id options => simp [Op.isSetRoot] at hop
  | deleteNode id =>
    obtain ⟨hf, hd, _⟩ := deleteNodeFuel_exact _ _ _ _ ht h.distinct
    refine ⟨hR, hFo, hd, ?_⟩
    intro r n hn
    rw [hf.heap] at hn
    exact List.mem_append_right _ (h.ids r n hn)
  | addNode parentId id options =>
    cases hp : t.lookup parentId with
    | none =>
      simp only [Tree.step, Tree.addNode, hp, Except.ok.injEq] at ht
      subst ht
      exact h.same rfl rfl (fun _ => rfl) (fun k hk => List.mem_append_right _ hk)
    | some p =>
      have hw := h.rooted.wf
      obtain ⟨pn, hn, hpid⟩ := hw.index parentId p hp
      obtain ⟨pf, hf⟩ := hw.shape p pn hn
      have g := addNode_grows t t' parentId id options p pn pf hp hn hf ht
      have gr := addNode_grafted t t' parentId id options p pn pf hp hn hf ht
      have hidfresh : id ∉ used := hfresh id (by simp [addIds])
      have hyid : (childNode id options pf).id = id := rfl
      have hold : ∀ (r : Nat) (n : TreeNode), t.heap[r]? = some n → n.id ≠ id := by
        intro r n hr heq
        exact hidfresh (heq ▸ h.ids r n hr)
      refine ⟨hR, hFo, ⟨hR.wf.index, ?_, ?_⟩, ?_⟩
      · intro a b na nb ha hb hab
        rcases g.old_inv a na ha with ⟨ha1, ha2⟩ | ⟨_, n0a, h0a, hida, _⟩
        · rcases g.old_inv b nb hb with ⟨hb1, _⟩ | ⟨_, n0b, h0b, hidb, _⟩
          · rw [ha1, hb1]
          · subst ha2
            exact absurd (hidb.symm.trans (hab.symm.trans hyid)) (hold b n0b h0b)
        · rcases g.old_inv b nb hb with ⟨_, hb2⟩ | ⟨_, n0b, h0b, hidb, _⟩
          · subst hb2
            exact absurd (hida.symm.trans (hab.trans hyid)) (hold a n0a h0a)
          · exact h.distinct.inj a b n0a n0b h0a h0b (hida.symm.trans (hab.trans hidb))
      · intro r n1 c cn1 h1 hc hc1 hdead
        rcases g.old_inv r n1 h1 with ⟨_, hy⟩ | ⟨_, n, h0, hid, _, _, hkids, _⟩
        · subst hy
          rw [g.fresh] at hc
          cases hc
        · have hne : n1.id ≠ (childNode id options pf).id := by
            rw [hid, hyid]
            exact hold r n h0
          rw [g.lookup, if_neg hne, hid] at hdead
          rcases hkids c hc with h2 | h2
          · obtain ⟨_, hclt⟩ := hw.child r n c h0 h2
            have hcn : t.heap[c]? = some (t.heap[c]) := List.getElem?_eq_getElem hclt
            obtain ⟨cn1', hc1', hidc, _⟩ := g.old c _ hcn
            rw [hc1] at hc1'
            cases hc1'
            have hcdead := h.distinct.closed r n c _ h0 h2 hcn hdead
            have hne2 : cn1.id ≠ (childNode id options pf).id := by
              rw [hidc, hyid]
              exact hold c _ hcn
            rw [g.lookup, if_neg hne2, hidc]
            exact hcdead
          · have hk := gr r n n1 h0 h1
            by_cases hq : some p = some r
            · have hpr : p = r := Option.some.inj hq
              subst hpr
              rw [hn] at h0
              cases h0
              rw [hpid, hp] at hdead
              cases hdead
            · rw [if_neg hq] at hk
              rw [hk, h2] at hc
              have := (hw.child r n _ h0 hc).2
              omega
      · intro r n1 h1
        rcases g.old_inv r n1 h1 with ⟨_, hy⟩ | ⟨_, n, h0, hid, _⟩
        · subst hy
          simp [addIds, hyid]
        · rw [hid]
          exact List.mem_append_right _ (h.ids r n h0)

theorem tidy_run (ops : List Op) :
    ∀ (t : Tree) (used : List String), Tidy t used → (∀ op ∈ ops, op.isSetRoot = false) →
      (addIds ops).Nodup → (∀ x ∈ addIds ops, x ∉ used) →
      ∃ t' used', t.run ops = .ok t' ∧ Tidy t' used' := by
  induction ops with
  | nil => intro t used h _ _ _; exact ⟨t, used, rfl, h⟩
  | cons op ops ih =>
    intro t used h hops hnd hfresh
    rw [addIds_cons] at hnd hfresh
    have hnd2 := List.nodup_append.mp hnd
    obtain ⟨t1, h1, _⟩ := step_ok t op h.rooted.wf
    have ht1 := tidy_step h op (hops op (List.mem_cons_self _ _))
      (fun x hx => hfresh x (List.mem_append_left _ hx)) h1
    obtain ⟨t2, used2, h2, ht2⟩ := ih t1 _ ht1
      (fun o ho => hops o (List.mem_cons_of_mem _ ho)) hnd2.2.1 (by
        intro x hx hmem
        rcases List.mem_append.mp hmem with h3 | h3
        · exact hnd2.2.2 h3 hx
        · exact hfresh x (List.mem_append_right _ hx) h3)
    exact ⟨t2, used2, by simp only [Tree.run, h1, h2], ht2⟩

theorem tidy_setRoot (rootId : String) (rootOptions : Options) :
    Tidy (Tree.new.setRoot rootId rootOptions) [rootId] := by
  have hB := Built.setRoot rootId rootOptions
  refine ⟨⟨hB.wf, hB.root, ?_⟩, ?_, hB.distinct, ?_⟩
  · intro k r hk
    obtain ⟨n, hn, _⟩ := hB.wf.index k r hk
    apply hB.reach
    by_contra hc
    rw [List.getElem?_eq_none (by omega)] at hn
    cases hn
  · exact step_forest Tree.new _ (Op.setRoot rootId rootOptions) WF.new forest_new rfl
  · intro r n hn
    have := hB.keys n.id r (hB.present r n hn)
    exact this

/-- What `printTree` logs in a tree in which no id was used twice. -/
theorem tidy_printTree {t : Tree} {used : List String} (h : Tidy t used) :
    ∃ out, t.printTree = .ok out ∧ (recordIds out).Nodup ∧
      (∀ k, k ∈ recordIds out ↔ t.lookup k ≠ none) ∧
      (∀ e ∈ out.flatMap NodeRep.entries, ∃ r n, t.lookup e.1 = some r ∧
        t.heap[r]? = some n ∧ n.id = e.1 ∧ n.options = e.2) := by
  have hw := h.rooted.wf
  have hlen := hw.rootValid 0 h.rooted.root
  obtain ⟨x, hx⟩ := traverse_ok t hw (t.heap.length + 1) 0 hlen (by omega)
  cases x with
  | none =>
    obtain ⟨n0, hn0, hdead⟩ := traverse_none t _ 0 hx
    refine ⟨[], by simp only [Tree.printTree, h.rooted.root, hx], by simp [recordIds], ?_, ?_⟩
    · intro k
      simp only [recordIds, List.flatMap_nil, List.map_nil, List.not_mem_nil, false_iff,
        not_not]
      cases hk : t.lookup k with
      | none => rfl
      | some r =>
        obtain ⟨n, hn, hid⟩ := hw.index k r hk
        have := h.distinct.below hn0 hdead k ⟨r, n, h.rooted.reach k r hk, hn, hid⟩
        rw [hk] at this
        cases this
    · intro e he
      simp at he
  | some rep =>
    have hsound := traverse_entries_sound t _ 0 rep hx
    refine ⟨[rep], by simp only [Tree.printTree, h.rooted.root, hx], ?_, ?_, ?_⟩
    · simpa [recordIds] using traverse_entries_nodup t hw h.forest h.distinct _ 0 rep hx
    · intro k
      simp only [recordIds, List.flatMap_cons, List.flatMap_nil, List.append_nil]
      constructor
      · intro hk
        obtain ⟨e, he, hek⟩ := List.mem_map.mp hk
        obtain ⟨_, _, _, _, _, _, hl⟩ := hsound e he
        rw [← hek]
        exact hl
      · intro hk
        cases hl : t.lookup k with
        | none => exact absurd hl hk
        | some r =>
          obtain ⟨n, hn, hid⟩ := hw.index k r hl
          have := traverse_entries_complete t h.distinct _ 0 rep hx r n
            (h.rooted.reach k r hl) hn (by rw [hid]; exact hk)
          rw [hid] at this
          exact this
    · intro e he
      simp only [List.flatMap_cons, List.flatMap_nil, List.append_nil] at he
      obtain ⟨d, nd, _, hd, hid, hopt, hl⟩ := hsound e he
      cases hlk : t.lookup e.1 with
      | none => exact absurd hlk hl
      | some r =>
        obtain ⟨n, hn, hnid⟩ := hw.index e.1 r hlk
        have hrd : r = d := h.distinct.inj r d n nd hn hd (hnid.trans hid.symm)
        subst hrd
        exact ⟨r, nd, rfl, hd, hid, hopt⟩

/-- C12 as stated fails: after `setRoot('a')` and `setRoot('b')` (no `addNode`
at all) the id `a` is in the index but `printTree` logs only the record of
`b`. -/
theorem printTree_misses_first_root :
    ((Tree.new.setRoot "a" {}).setRoot "b" {}).lookup "a" = some 0 ∧
    ((Tree.new.setRoot "a" {}).setRoot "b" {}).printTree = .ok [NodeRep.mk "b" {} []] ∧
    "a" ∉ recordIds [NodeRep.mk "b" {} []] :=
  ⟨rfl, rfl, by decide⟩

/-- The other way C12 fails, through the child list that `deleteNode` leaves as
it was: after `setRoot('r')`, `addNode('r','a')`, `deleteNode('a')` and
`addNode('r','a')` (the id is absent from the index at each `addNode`), the
deleted node is printed again, next to the new one. -/
theorem printTree_reused_id_prints_deleted_node :
    ∃ t, Tree.new.run [Op.setRoot "r" {}, Op.addNode "r" "a" { width := some 1 },
        Op.deleteNode "a", Op.addNode "r" "a" { width := some 2 }] = .ok t ∧
      t.printTree = .ok [NodeRep.mk "r" {}
        [NodeRep.mk "a" { width := some 1 } [], NodeRep.mk "a" { width := some 2 } []]] :=
  ⟨_, rfl, rfl⟩

/-- C12, amended: after one `setRoot` on a new tree followed by any sequence of
`addNode` and `deleteNode` calls in which no id is ever used twice (the ids
given to `addNode` are pairwise distinct and differ from the root id, so an id
is not used again after its node was deleted) and no id that the calls mention
is a name inherited from `Object.prototype`, the calls and `printTree` return,
and the output holds exactly one record for each id of the index and no other
record: no id occurs twice, an id occurs if and only if it is a key of the
index, and each record carries the id and the options of the node the index
maps its id to. -/
theorem printTree_lists_index (rootId : String) (rootOptions : Options) (ops : List Op)
    (hops : ∀ op ∈ ops, op.isSetRoot = false) (hnd : (rootId :: addIds ops).Nodup)
    (_hplain : ∀ k ∈ rootId :: opIds ops, inheritedKey k = false) :
    ∃ t out, (Tree.new.setRoot rootId rootOptions).run ops = .ok t ∧
      t.printTree = .ok out ∧ (recordIds out).Nodup ∧
      (∀ k, k ∈ recordIds out ↔ t.lookup k ≠ none) ∧
      (∀ e ∈ out.flatMap NodeRep.entries, ∃ r n, t.lookup e.1 = some r ∧
        t.heap[r]? = some n ∧ n.id = e.1 ∧ n.options = e.2) := by
  rw [List.nodup_cons] at hnd
  obtain ⟨t, used, ht, hT⟩ := tidy_run ops _ [rootId] (tidy_setRoot rootId rootOptions) hops
    hnd.2 (by
      intro x hx hmem
      rw [List.mem_singleton] at hmem
      exact hnd.1 (hmem ▸ hx))
  obtain ⟨out, hout⟩ := tidy_printTree hT
  exact ⟨t, out, ht, hout⟩

theorem printTree_lists_index_witness :
    ∃ t out, (Tree.new.setRoot "root" demoRootOptions).run
        (addOps demoAdds ++ [Op.deleteNode "child1", Op.addNode "root" "child3" {}]) = .ok t ∧
      t.printTree = .ok out ∧ (recordIds out).Nodup ∧
      (∀ k, k ∈ recordIds out ↔ t.lookup k ≠ none) ∧
      (∀ e ∈ out.flatMap NodeRep.entries, ∃ r n, t.lookup e.1 = some r ∧
        t.heap[r]? = some n ∧ n.id = e.1 ∧ n.options = e.2) :=
  printTree_lists_index "root" demoRootOptions
    (addOps demoAdds ++ [Op.deleteNode "child1", Op.addNode "root" "child3" {}])
    (by decide) (by decide) (by decide)

end SceneTree

namespace SceneTree

/-! ## Defaults of the options bag -/

/-- C16 as stated fails: with an explicit width, height and border size of 0
and an explicit empty colour, the shape gets the defaults 50, 50, 2 and
`blue`, not the explicit values. -/
theorem createFabricObject_replaces_explicit_zero :
    ((TreeNode.new "a"
        { width := some 0, height := some 0, borderSize := some 0,
          color := some "" }).createFabricObject).fabricObject =
      some { left := 0, top := 0, width := 50, height := 50, fill := "blue",
             strokeWidth := 2, stroke := "black" } := by
  decide

/-- C16, amended: for every options bag, the shape that `createFabricObject`
builds (for `setRoot` and for `addNode` alike) takes each recognised field
from the options when it is present and truthy, that is a number other than 0
or a non-empty string, and takes the default when the field is absent, 0 or
the empty string: width and height 50, colour `blue`, border size 2, border
colour `black`, x and y 0 (so an explicit x or y is kept, 0 included).  The node
that `setRoot` stores has exactly this shape. -/
theorem createFabricObject_defaults_falsy (t : Tree) (id : String) (o : Options) :
    ∃ shape, ((TreeNode.new id o).createFabricObject).fabricObject = some shape ∧
      (t.setRoot id o).heap[t.heap.length]? = some
        { id := id, options := o, children := [], fabricObject := some shape } ∧
      shape.left = o.x.getD 0 ∧ shape.top = o.y.getD 0 ∧
      (∀ v, o.width = some v → v ≠ 0 → shape.width = v) ∧
      (o.width = none ∨ o.width = some 0 → shape.width = 50) ∧
      (∀ v, o.height = some v → v ≠ 0 → shape.height = v) ∧
      (o.height = none ∨ o.height = some 0 → shape.height = 50) ∧
      (∀ v, o.borderSize = some v → v ≠ 0 → shape.strokeWidth = v) ∧
      (o.borderSize = none ∨ o.borderSize = some 0 → shape.strokeWidth = 2) ∧
      (∀ c, o.color = some c → c ≠ "" → shape.fill = c) ∧
      (o.color = none ∨ o.color = some "" → shape.fill = "blue") ∧
      (∀ c, o.borderColor = some c → c ≠ "" → shape.stroke = c) ∧
      (o.borderColor = none ∨ o.borderColor = some "" → shape.stroke = "black") := by
  refine ⟨_, rfl, ?_, ?_, ?_, ?_, ?_, ?_, ?_, ?_, ?_, ?_, ?_, ?_, ?_⟩
  · simp [Tree.setRoot, TreeNode.createFabricObject, TreeNode.new]
  · cases h : o.x with
    | none => simp [orNum, TreeNode.new, h]
    | some v => by_cases hv : v = 0 <;> simp [orNum, TreeNode.new, h, hv]
  · cases h : o.y with
    | none => simp [orNum, TreeNode.new, h]
    | some v => by_cases hv : v = 0 <;> simp [orNum, TreeNode.new, h, hv]
  · intro v h hv
    simp [orNum, TreeNode.new, h, hv]
  · rintro (h | h) <;> simp [orNum, TreeNode.new, h]
  · intro v h hv
    simp [orNum, TreeNode.new, h, hv]
  · rintro (h | h) <;> simp [orNum, TreeNode.new, h]
  · intro v h hv
    simp [orNum, TreeNode.new, h, hv]
  · rintro (h | h) <;> simp [orNum, TreeNode.new, h]
  · intro c h hc
    simp [orStr, TreeNode.new, h, hc]
  · rintro (h | h) <;> simp [orStr, TreeNode.new, h]
  · intro c h hc
    simp [orStr, TreeNode.new, h, hc]
  · rintro (h | h) <;> simp [orStr, TreeNode.new, h]

/-! ## Termination on every reachable state -/

theorem deleteNodeFuel_more (t : Tree) (id : String) (t' : Tree) (fuel : Nat)
    (h : Tree.deleteNodeFuel fuel t id = .ok t') :
    ∀ k, Tree.deleteNodeFuel (fuel + k) t id = .ok t' := by
  intro k
  induction k with
  | zero => exact h
  | succ k ih => exact deleteNodeFuel_mono _ t id t' ih

/-- C19: every sequence of `setRoot`, `addNode` and `deleteNode` calls on a new
tree returns, and in the state it reaches every `deleteNode(id)` returns, with
the same result for every bound on the recursion depth that exceeds the number
of objects; this covers the states in which ids were reused or repeated. -/
theorem deleteNode_terminates (ops : List Op) (id : String) :
    ∃ t t', Tree.new.run ops = .ok t ∧ t.deleteNode id = .ok t' ∧
      ∀ fuel, t.heap.length < fuel → Tree.deleteNodeFuel fuel t id = .ok t' := by
  obtain ⟨t, ht, hw⟩ := run_ok ops Tree.new WF.new
  obtain ⟨t', ht'⟩ := deleteNode_ok t id hw
  refine ⟨t, t', ht, ht', fun fuel hf => ?_⟩
  have := deleteNodeFuel_more t id t' (t.heap.length + 1) ht' (fuel - (t.heap.length + 1))
  rw [show t.heap.length + 1 + (fuel - (t.heap.length + 1)) = fuel by omega] at this
  exact this

/-- An instance of C19 with a repeated id: in the recursion of
`deleteNode('r')` the id `a` of the first child resolves to nothing, the
second child having been deleted under that id before. -/
theorem deleteNode_terminates_repeated_id :
    ∃ t t', Tree.new.run [Op.setRoot "r" {}, Op.addNode "r" "a" {}, Op.addNode "a" "b" {},
        Op.addNode "r" "a" {}] = .ok t ∧ t.deleteNode "r" = .ok t' ∧
      t'.console = ["Node not found"] :=
  ⟨_, _, rfl, rfl, rfl⟩

/-! ## The order of the `remove` requests -/

theorem before_append_left {l : List Nat} {d a : Nat} (r : List Nat) (h : Before l d a) :
    Before (l ++ r) d a := by
  obtain ⟨l1, l2, l3, hl⟩ := h
  exact ⟨l1, l2, l3 ++ r, by simp [hl]⟩

theorem before_append_right {l : List Nat} {d a : Nat} (r : List Nat) (h : Before l d a) :
    Before (r ++ l) d a := by
  obtain ⟨l1, l2, l3, hl⟩ := h
  exact ⟨r ++ l1, l2, l3, by simp [hl]⟩

theorem before_snoc {l : List Nat} {d : Nat} (a : Nat) (h : d ∈ l) :
    Before (l ++ [a]) d a := by
  obtain ⟨l1, l2, hl⟩ := List.append_of_mem h
  exact ⟨l1, l2, [], by simp [hl]⟩

theorem nodup_index {l : List Nat} (h : l.Nodup) {i j : Nat} {c : Nat}
    (hi : l[i]? = some c) (hj : l[j]? = some c) : i = j := by
  have hil : i < l.length := by
    by_contra hc
    rw [List.getElem?_eq_none (by omega)] at hi
    cases hi
  have hjl : j < l.length := by
    by_contra hc
    rw [List.getElem?_eq_none (by omega)] at hj
    cases hj
  rw [List.getElem?_eq_getElem hil] at hi
  rw [List.getElem?_eq_getElem hjl] at hj
  exact (h.getElem_inj_iff).mp ((Option.some.inj hi).trans (Option.some.inj hj).symm)

theorem recursiveDelete_log (fuel r : Nat) (n : TreeNode)
    (ih : ∀ (s : Tree) (id : String) (s' : Tree) (m : Nat),
      Tree.deleteNodeFuel fuel s id = .ok s' → WF s → Forest s → Distinct s →
      s.lookup id = some m →
      (∀ x nx, Reach s.heap m x → s.heap[x]? = some nx → s.lookup nx.id ≠ none) →
      ∃ L, s'.canvas.removed = s.canvas.removed ++ L ∧ PostOrder s.heap m L) :
    ∀ (i : Nat) (s s' : Tree), recursiveDelete (Tree.deleteNodeFuel fuel) r i s = .ok s' →
      WF s → Forest s → Distinct s → s.heap[r]? = some n →
      (∀ j c, j < i → n.children[j]? = some c →
        ∀ x nx, Reach s.heap c x → s.heap[x]? = some nx → s.lookup nx.id ≠ none) →
      ∃ L, s'.canvas.removed = s.canvas.removed ++ L ∧ L.Nodup ∧
        (∀ x, x ∈ L ↔ ∃ j c, j < i ∧ n.children[j]? = some c ∧ Reach s.heap c x) ∧
        (∀ a d, a ∈ L → Reach s.heap a d → a ≠ d → Before L d a) ∧
        s'.heap = s.heap := by
  intro i
  induction i with
  | zero =>
    intro s s' h _ _ _ _ _
    simp only [recursiveDelete, Except.ok.injEq] at h
    subst h
    refine ⟨[], by simp, List.nodup_nil, ?_, ?_, rfl⟩
    · intro x
      constructor
      · intro hx; cases hx
      · rintro ⟨j, c, hj, _⟩; omega
    · intro a d ha; cases ha
  | succ i ihi =>
    intro s s' h hw hF hD hn hlive
    simp only [recursiveDelete, hn] at h
    split at h
    · cases h
    · rename_i c hc
      split at h
      · cases h
      · rename_i child hchild
        split at h
        · cases h
        · rename_i s1 h1
          have hcmem : c ∈ n.children := List.getElem?_mem hc
          have hlivec := hlive i c (Nat.lt_succ_self i) hc
          have hl : s.lookup child.id = some c := by
            cases hl : s.lookup child.id with
            | none => exact absurd hl (hlivec c child Relation.ReflTransGen.refl hchild)
            | some m =>
              obtain ⟨nm, hm, hid⟩ := hD.index _ m hl
              rw [hD.inj m c nm child hm hchild hid]
          obtain ⟨Lc, e1, p1⟩ := ih s child.id s1 c h1 hw hF hD hl hlivec
          obtain ⟨f1, d1, x1⟩ := deleteNodeFuel_exact _ _ _ _ h1 hD
          have hx1 := x1.1 c hl
          have hapart : ∀ j c', j < i → n.children[j]? = some c' →
              ∀ x, Reach s.heap c x → Reach s.heap c' x → False := by
            intro j c' hj hc' x hcx hc'x
            have hcc := subtrees_disjoint hw hF r n hn c c' x hcmem (List.getElem?_mem hc')
              hcx hc'x
            subst hcc
            have := nodup_index (hF.nodup r n hn) hc hc'
            omega
          have hlive1 : ∀ j c', j < i → n.children[j]? = some c' →
              ∀ x nx, Reach s1.heap c' x → s1.heap[x]? = some nx →
                s1.lookup nx.id ≠ none := by
            intro j c' hj hc' x nx hreach hx hdead
            rw [f1.heap] at hreach hx
            rcases (hx1 nx.id).mp hdead with h2 | ⟨d, nd, hcd, hd, hid⟩
            · exact hlive j c' (by omega) hc' x nx hreach hx h2
            · have hdx : d = x := hD.inj d x nd nx hd hx hid
              subst hdx
              exact hapart j c' hj hc' d hcd hreach
          have hn1 : s1.heap[r]? = some n := by rw [f1.heap]; exact hn
          obtain ⟨Lr, e2, nd2, mem2, ord2, hh2⟩ :=
            ihi s1 s' h (hw.of_frame f1) (forest_of_frame hF f1) d1 hn1 hlive1
          rw [f1.heap] at mem2 ord2
          refine ⟨Lc ++ Lr, by rw [e2, e1, List.append_assoc], ?_, ?_, ?_,
            hh2.trans f1.heap⟩
          · refine List.nodup_append.mpr ⟨p1.nodup, nd2, ?_⟩
            intro x hx1' hx2
            obtain ⟨j, c', hj, hc', hreach⟩ := (mem2 x).mp hx2
            exact hapart j c' hj hc' x ((p1.mem x).mp hx1') hreach
          · intro x
            rw [List.mem_append, p1.mem, mem2]
            constructor
            · rintro (h2 | ⟨j, c', hj, hc', hreach⟩)
              · exact ⟨i, c, Nat.lt_succ_self i, hc, h2⟩
              · exact ⟨j, c', by omega, hc', hreach⟩
            · rintro ⟨j, c', hj, hc', hreach⟩
              by_cases hji : j = i
              · subst hji
                rw [hc] at hc'
                cases hc'
                exact Or.inl hreach
              · exact Or.inr ⟨j, c', by omega, hc', hreach⟩
          · intro a d ha had hne
            rcases List.mem_append.mp ha with h2 | h2
            · exact before_append_left Lr (p1.order a d h2 had hne)
            · exact before_append_right Lc (ord2 a d h2 had hne)

theorem deleteNodeFuel_log :
    ∀ (fuel : Nat) (s : Tree) (id : String) (s' : Tree) (m : Nat),
      Tree.deleteNodeFuel fuel s id = .ok s' → WF s → Forest s → Distinct s →
      s.lookup id = some m →
      (∀ x nx, Reach s.heap m x → s.heap[x]? = some nx → s.lookup nx.id ≠ none) →
      ∃ L, s'.canvas.removed = s.canvas.removed ++ L ∧ PostOrder s.heap m L := by
  intro fuel
  induction fuel with
  | zero =>
    intro s id s' m h
    simp [Tree.deleteNodeFuel] at h
  | succ fuel ih =>
    intro s id s' m h hw hF hD hl hlive
    obtain ⟨node, hnode, _⟩ := hw.index id m hl
    obtain ⟨shape, hshape⟩ := hw.shape m node hnode
    simp only [Tree.deleteNodeFuel, TreeNode.parent, hl, hnode] at h
    split at h
    · cases h
    · rename_i s1 h1
      simp only [Except.ok.injEq] at h
      subst h
      obtain ⟨L, e1, nd1, mem1, ord1, _⟩ := recursiveDelete_log fuel m node ih
        node.children.length s s1 h1 hw hF hD hnode (by
          intro j c _ hc x nx hreach hx
          exact hlive x nx
            (Relation.ReflTransGen.head ⟨node, hnode, List.getElem?_mem hc⟩ hreach) hx)
      have hmem : ∀ x, x ∈ L ↔ ∃ c, c ∈ node.children ∧ Reach s.heap c x := by
        intro x
        rw [mem1]
        constructor
        · rintro ⟨j, c, _, hc, hreach⟩
          exact ⟨c, List.getElem?_mem hc, hreach⟩
        · rintro ⟨c, hc, hreach⟩
          obtain ⟨j, hjc⟩ := List.mem_iff_getElem?.mp hc
          have hj : j < node.children.length := by
            by_contra hcon
            rw [List.getElem?_eq_none (by omega)] at hjc
            cases hjc
          exact ⟨j, c, hj, hjc, hreach⟩
      have hreach_iff : ∀ x, Reach s.heap m x ↔ x = m ∨ x ∈ L := by
        intro x
        rw [hmem]
        constructor
        · intro hx
          rcases reach_head hx with h2 | ⟨c, ⟨n', hn', hc⟩, hcx⟩
          · exact Or.inl h2
          · rw [hnode] at hn'
            cases hn'
            exact Or.inr ⟨c, hc, hcx⟩
        · rintro (h2 | ⟨c, hc, hcx⟩)
          · rw [h2]
            exact Relation.ReflTransGen.refl
          · exact Relation.ReflTransGen.head ⟨node, hnode, hc⟩ hcx
      have hnotin : m ∉ L := by
        intro hin
        obtain ⟨c, hc, hcx⟩ := (hmem m).mp hin
        have h2 := reach_le hw hcx
        have h3 := (hw.child m node c hnode hc).1
        omega
      refine ⟨L ++ [m], ?_, ?_, ?_, ?_⟩
      · simp only [hshape, Canvas.remove, e1, List.append_assoc]
      · refine List.nodup_append.mpr ⟨nd1, List.nodup_singleton _, ?_⟩
        intro x hx hx2
        rw [List.mem_singleton] at hx2
        subst hx2
        exact hnotin hx
      · intro x
        rw [hreach_iff, List.mem_append, List.mem_singleton]
        exact Or.comm
      · intro a d ha had hne
        rcases List.mem_append.mp ha with h2 | h2
        · exact before_append_left [m] (ord1 a d h2 had hne)
        · rw [List.mem_singleton] at h2
          subst h2
          rcases (hreach_iff d).mp had with h3 | h3
          · exact absurd h3.symm hne
          · exact before_snoc a h3

/-- What holds of C17 on a tree without earlier deletion: for every tree built
by one `setRoot` and `addNode` calls with pairwise distinct ids, none of the
ids in play being a name inherited from `Object.prototype`, and every id in
the index, `deleteNode(id)` returns and adds to the trace of render-surface
`remove` requests one request for each node of the subtree rooted at `id` and
for no other node, the request for a node coming after the requests for all of
its descendants. -/
theorem deleteNode_removes_shapes_post_order (rootId : String) (rootOptions : Options)
    (adds : List (String × String × Options)) (t : Tree) (id : String) (m : Nat)
    (hnd : (rootId :: adds.map (fun a => a.2.1)).Nodup)
    (hb : Tree.build rootId rootOptions adds = .ok t) (hl : t.lookup id = some m)
    (_hplain : ∀ k ∈ rootId :: opIds (addOps adds), inheritedKey k = false) :
    ∃ t' L, t.deleteNode id = .ok t' ∧
      t'.canvas.removed = t.canvas.removed ++ L ∧ L.Nodup ∧
      (∀ x, x ∈ L ↔ Reach t.heap m x) ∧
      (∀ a d, a ∈ L → Reach t.heap a d → a ≠ d → Before L d a) := by
  obtain ⟨t0, ids, hb0, hB⟩ := build_built rootId rootOptions adds hnd
  rw [hb] at hb0
  cases hb0
  have hF : Forest t := by
    rw [build_run] at hb
    exact run_forest _ Tree.new t WF.new forest_new hb
  obtain ⟨t', ht'⟩ := deleteNode_ok t id hB.wf
  obtain ⟨L, e, p⟩ := deleteNodeFuel_log _ t id t' m ht' hB.wf hF hB.distinct hl (by
    intro x nx _ hx
    rw [hB.present x nx hx]
    simp)
  exact ⟨t', L, ht', e, p.nodup, p.mem, p.order⟩

theorem deleteNode_removes_shapes_post_order_witness :
    ∃ t' L, demoTree.deleteNode "root" = .ok t' ∧
      t'.canvas.removed = demoTree.canvas.removed ++ L ∧ L.Nodup ∧
      (∀ x, x ∈ L ↔ Reach demoTree.heap 0 x) ∧
      (∀ a d, a ∈ L → Reach demoTree.heap a d → a ≠ d → Before L d a) :=
  deleteNode_removes_shapes_post_order "root" demoRootOptions demoAdds demoTree "root" 0
    (by decide) rfl rfl (by decide)

/-- C17, evaluated where it fails: the tree reached by `setRoot('r')`,
`addNode('r', 'constructor')` and `deleteNode('constructor')` has pairwise
distinct ids and `r` in its index.  The deleted node is still in the child list
of `r`, so `deleteNode('r')` calls `deleteNode('constructor')`, whose read
`this.nodes['constructor']` is true (the inherited function) although the id
is no key of the index: the guard `if (!node)` does not fire, and
`n.children.length` on that function throws a `TypeError` before any `remove`
request for `r` is issued. -/
theorem deleteNode_recursion_meets_inherited_id :
    ∃ t, Tree.new.run [Op.setRoot "r" {}, Op.addNode "r" "constructor" {},
        Op.deleteNode "constructor"] = .ok t ∧
      t.lookup "r" = some 0 ∧ (t.heap[0]?).map (fun n => n.children) = some [1] ∧
      (t.heap[1]?).map (fun n => n.id) = some "constructor" ∧
      t.lookup "constructor" = none ∧ t.truthy "constructor" = true ∧
      t.canvas.removed = [1] :=
  ⟨_, rfl, rfl, rfl, rfl, rfl, rfl, rfl⟩

/-- The trace of `remove` requests on the tree of `TreeVisualization`: `deleteNode('root')`
removes the shapes of `child2`, `subChild1`, `child1` and `root`, in that
order. -/
theorem deleteNode_root_trace :
    ∃ t', demoTree.deleteNode "root" = .ok t' ∧ t'.canvas.removed = [2, 3, 1, 0] ∧
      t'.canvas.objects = [] :=
  ⟨_, rfl, rfl, rfl⟩

end SceneTree
